import Mathlib

/-!
Verification of `common.go`.

A shallow embedding of the identifier obfuscator (`Encrypt`, `Decrypt`), of the batched
random string generator (`RandomStr`, `RandomNumeric`), of `Rounder` over a model of
`float64`, and of `Contains` of package `common`, followed by the properties proved about
them.
-/

namespace Common

/-! ## Values and conversions -/

/-- A Go `interface{}` value, restricted to the dynamic types the obfuscator is used with:
a machine integer or a string. -/
inductive Value where
  | int (i : Int)
  | str (s : String)
  deriving DecidableEq, Repr

/-- Character of a decimal digit `d < 10`. -/
def digitChar (d : Nat) : Char := Char.ofNat (48 + d)

/-- Decimal digits of `n`, most significant first, pushed in front of `acc`;
`fuel` bounds the number of digits produced. -/
def natDigits : Nat → Nat → List Char → List Char
  | 0, _, acc => acc
  | fuel + 1, n, acc =>
    if n < 10 then digitChar n :: acc
    else natDigits fuel (n / 10) (digitChar (n % 10) :: acc)

/-- Decimal rendering of a natural number. -/
def natDecimal (n : Nat) : List Char := natDigits (n + 1) n []

/-- Value of a string of decimal digits, `none` when a character is not a digit. -/
def parseDigits : List Char → Nat → Option Nat
  | [], acc => some acc
  | c :: cs, acc =>
    if 48 ≤ c.toNat ∧ c.toNat ≤ 57 then parseDigits cs (10 * acc + (c.toNat - 48)) else none

/-- Integer denoted by a decimal numeral with an optional leading minus sign; 0 when the
characters are not such a numeral. -/
def parseInt : List Char → Int
  | [] => 0
  | c :: cs =>
    if c = '-' then
      if cs = [] then 0
      else match parseDigits cs 0 with
        | some n => -(n : Int)
        | none => 0
    else match parseDigits (c :: cs) 0 with
      | some n => (n : Int)
      | none => 0

/-- Modelled from the spec: `ToString` is a helper of package `common` that is not part of
`common.go`; the obfuscator relies on it as the conversion of an integer to its decimal
string (a string is returned unchanged). -/
def ToString : Value → String
  | .int i =>
    if i < 0 then String.mk ('-' :: natDecimal i.natAbs) else String.mk (natDecimal i.natAbs)
  | .str s => s

/-- Modelled from the spec: `ToInt` is a helper of package `common` that is not part of
`common.go`; the obfuscator relies on it as the conversion of a decimal string back to the
integer it denotes (an integer is returned unchanged, a string that is not a decimal
numeral converts to 0). -/
def ToInt : Value → Int
  | .int i => i
  | .str s => parseInt s.data

/-! ## Identifier obfuscator -/

/-- Go `Encrypt`: `ToString(((0x0000FFFF & num) << 16) + ((0xFFFF0000 & num) >> 16))`
with `num := ToInt(n)`. The bit operations are those of two's-complement integers; the
result lies in `[0, 2^32)`, so no machine overflow occurs in a 64-bit `int`. -/
def Encrypt (n : Value) : String :=
  let num := ToInt n
  ToString (.int (((Int.land 0x0000FFFF num) <<< 16) + ((Int.land 0xFFFF0000 num) >>> 16)))

/-- Go `DecryptionError`: the error type caused by a decryption failure. -/
structure DecryptionError where
  Message : String
  Values : Value
  deriving DecidableEq, Repr

/-- Go `Decrypt`: returns `(id, err)`; `err = none` is Go's `nil` error. The conversion
`int64(num)` is the identity, `num` being a 64-bit `int`; the named results start as
`(0, nil)`, so the failing path returns id 0 with the error. -/
def Decrypt (v : Value) : Int × Option DecryptionError :=
  let num := ToInt (.str (Encrypt v))
  if num ≠ 0 then
    (num, none)
  else
    (0, some { Message := "", Values := v })

/-! ## Batched random string generator -/

/-- Go `letterIdxBits`: 6 bits to represent a letter index. -/
def letterIdxBits : Nat := 6

/-- Go `letterIdxMask`: all 1-bits, as many as `letterIdxBits`. -/
def letterIdxMask : Nat := 1 <<< letterIdxBits - 1

/-- Go `letterIdxMax`: number of letter indices fitting in 63 bits. -/
def letterIdxMax : Nat := 63 / letterIdxBits

/-- Go `letterBytes`. -/
def letterBytes : String := "abcdefghijklmnopqrstuvwxyzABCDEFGHIJKLMNOPQRSTUVWXYZ"

/-- Go `numeric`. -/
def numeric : String := "0123456789"

/-- The entropy source `src`: the sequence of values it will hand out and the number of
values already drawn from it. -/
structure Source where
  draws : Nat → Nat
  pos : Nat

/-- Go `src.Int63()`: the next value of the source, a non-negative 63-bit integer, and the
advanced source. -/
def Source.Int63 (s : Source) : Nat × Source :=
  (s.draws s.pos % 2 ^ 63, { s with pos := s.pos + 1 })

/-- The variables of the generator loop: the byte slice `b`, the position `i` still to be
filled, the current random value `cache`, the chunk budget `remain`, and the source. -/
structure LoopState where
  b : List Char
  i : Int
  cache : Nat
  remain : Nat
  src : Source

/-- One pass through the body of the `for` loop of `RandomStr` and `RandomNumeric`, the
two differing only in the alphabet indexed. -/
def loopBody (alphabet : String) (g : LoopState) : LoopState :=
  let g1 : LoopState :=
    if g.remain = 0 then
      { g with cache := g.src.Int63.1, remain := letterIdxMax, src := g.src.Int63.2 }
    else g
  let idx := g1.cache &&& letterIdxMask
  let g2 : LoopState :=
    if h : idx < alphabet.data.length then
      { g1 with b := g1.b.set g1.i.toNat (alphabet.data.get ⟨idx, h⟩), i := g1.i - 1 }
    else g1
  { g2 with cache := g2.cache >>> letterIdxBits, remain := g2.remain - 1 }

/-- The `for` loop with condition `i >= 0`, run for at most `fuel` passes; `none` when the
loop is still running after `fuel` passes. -/
def runLoop (alphabet : String) : Nat → LoopState → Option LoopState
  | 0, g => if 0 ≤ g.i then none else some g
  | fuel + 1, g => if 0 ≤ g.i then runLoop alphabet fuel (loopBody alphabet g) else some g

/-- Outcome of a call of the generator. -/
inductive Outcome where
  /-- The call returned this string, leaving the source in this state. -/
  | returned (s : String) (src : Source)
  /-- Runtime failure `makeslice: len out of range` of `make([]byte, n)`. -/
  | makesliceFault
  /-- The loop was still running when the fuel ran out. -/
  | running

/-- The body shared by `RandomStr` and `RandomNumeric`: allocate `n` zero bytes, draw the
first value, run the loop, convert the bytes to a string. -/
def generate (alphabet : String) (src : Source) (n : Int) (fuel : Nat) : Outcome :=
  if n < 0 then .makesliceFault
  else
    let b := List.replicate n.toNat (Char.ofNat 0)
    match runLoop alphabet fuel
        { b := b, i := n - 1, cache := src.Int63.1, remain := letterIdxMax, src := src.Int63.2 } with
    | some g => .returned (String.mk g.b) g.src
    | none => .running

/-- Go `RandomStr`: random string with defined length. -/
def RandomStr (src : Source) (n : Int) (fuel : Nat) : Outcome :=
  generate letterBytes src n fuel

/-- Go `RandomNumeric`: random numeric with defined length. -/
def RandomNumeric (src : Source) (n : Int) (fuel : Nat) : Outcome :=
  generate numeric src n fuel


/-! ## Chunk sequence of the generator -/

/-- The 6-bit chunk the next pass of the loop examines: the low bits of `cache`, taken
after the refill when the chunk budget is exhausted. -/
def examined (g : LoopState) : Nat :=
  (if g.remain = 0 then g.src.Int63.1 else g.cache) &&& letterIdxMask

/-- The chunk sequence of a source: from each value it hands out from now on, in order,
the ten lowest 6-bit chunks from least significant to most significant. -/
def chunkSeq (src : Source) (k : Nat) : Nat :=
  ((src.draws (src.pos + k / letterIdxMax) % 2 ^ 63) >>> (letterIdxBits * (k % letterIdxMax)))
    &&& letterIdxMask

/-- The chunks a loop state is going to examine, in order: those left in `cache`, then
the chunk sequence of its source. -/
def pending (g : LoopState) (k : Nat) : Nat :=
  if k < g.remain then (g.cache >>> (letterIdxBits * k)) &&& letterIdxMask
  else chunkSeq g.src (k - g.remain)

/-- A source that hands out the same value forever. -/
def constSource (v : Nat) : Source := { draws := fun _ => v, pos := 0 }

/-- A source used to run the generator on concrete input: its `k`-th value is
`(k + 1) * 0x9E3779B97F4A7C15`, reduced to 63 bits by `Int63`. -/
def sampleSource : Source := { draws := fun k => (k + 1) * 0x9E3779B97F4A7C15, pos := 0 }

/-- The accepted chunks among the first `K` chunks of a source, in order, for an alphabet
of `len` characters: a chunk is accepted when it is below `len`. -/
def acceptedChunks (len : Nat) (src : Source) (K : Nat) : List Nat :=
  ((List.range K).map (chunkSeq src)).filter (fun c => c < len)

/-- Reference definition of the generator, in the words of the specification: map through
the alphabet the first `n` accepted chunks of the source (looked for among its first `K`
chunks), the first accepted chunk becoming the last character. -/
def referenceString (alphabet : String) (src : Source) (n K : Nat) : String :=
  String.mk
    (((acceptedChunks alphabet.data.length src K).take n).map
      (fun c => alphabet.data.getD c (Char.ofNat 0))).reverse

/-! ## Arithmetic on float64 -/

/-- A value of Go `float64` (IEEE 754 binary64): a finite number of magnitude `m * 2^e`
with `m < 2^53` and `-1074 <= e <= 971` (and `2^52 <= m` unless `e = -1074`), carrying its
sign bit so that `-0` differs from `+0`; an infinity; or NaN. -/
inductive F64 where
  | finite (neg : Bool) (m : Nat) (e : Int)
  | inf (neg : Bool)
  | nan
  deriving DecidableEq, Repr

/-- Count the binary digits of `n` on top of `acc`, in at most `fuel` halvings. -/
def bitLenAux : Nat → Nat → Nat → Nat
  | 0, _, acc => acc
  | fuel + 1, n, acc => if n = 0 then acc else bitLenAux fuel (n / 2) (acc + 1)

/-- Number of binary digits of `n`: the least `k` with `n < 2^k`. -/
def bitLen (n : Nat) : Nat := bitLenAux n n 0

/-- The integer nearest to `n / d`, a tie going to the even one. -/
def roundHalfEven (n d : Nat) : Nat :=
  let q := n / d
  let r := n % d
  if 2 * r < d then q else if d < 2 * r then q + 1 else if q % 2 = 0 then q else q + 1

/-- The fraction `n / d` divided by `2^e`, as a fraction. -/
def scaleDown (n d : Nat) (e : Int) : Nat × Nat :=
  if 0 ≤ e then (n, d * 2 ^ e.toNat) else (n * 2 ^ (-e).toNat, d)

/-- Signed zero. -/
def F64.zero (neg : Bool) : F64 := .finite neg 0 (-1074)

/-- IEEE 754 rounding to nearest, ties to even, of the rational `n / d` (with `d > 0`) of
sign `neg`: the exponent is that of the binade of `n / d`, not below that of the
subnormals; a significand rounded up to `2^53` moves to the next binade; beyond the
largest finite binade the result is an infinity. -/
def F64.round (neg : Bool) (n d : Nat) : F64 :=
  if n = 0 then F64.zero neg
  else
    let k : Int := (bitLen n : Int) - (bitLen d : Int)
    let lg : Int := if (scaleDown n d k).2 ≤ (scaleDown n d k).1 then k else k - 1
    let e0 : Int := max (lg - 52) (-1074)
    let m := roundHalfEven (scaleDown n d e0).1 (scaleDown n d e0).2
    let m1 := if m = 2 ^ 53 then 2 ^ 52 else m
    let e1 := if m = 2 ^ 53 then e0 + 1 else e0
    if 971 < e1 then .inf neg else .finite neg m1 e1

/-- The finite value `t * 2^e` of sign `neg`, for `t < 2^53` and `-1074 <= e`, brought to
the form of the type: the significand is shifted left as far as it and the exponent allow. -/
def F64.normalize (neg : Bool) (t : Nat) (e : Int) : F64 :=
  if t = 0 then F64.zero neg
  else
    let s := min (53 - bitLen t) (e + 1074).toNat
    .finite neg (t * 2 ^ s) (e - s)

/-- The finite value `(-1)^neg * m * 2^e` counted in units of `2^b`, for `b <= e`. -/
def F64.key (b : Int) (neg : Bool) (m : Nat) (e : Int) : Int :=
  (if neg then -1 else 1) * ((m * 2 ^ (e - b).toNat : Nat) : Int)

/-- A unit `2^b` in which two finite values are both whole: the smaller of the two
exponents, a zero having no say. -/
def F64.unit (m : Nat) (e : Int) (m' : Nat) (e' : Int) : Int :=
  if m = 0 then e' else if m' = 0 then e else min e e'

/-- Go `math.Signbit`: whether the sign bit is set (not so for NaN). -/
def F64.signbit : F64 → Bool
  | .finite s _ _ => s
  | .inf s => s
  | .nan => false

/-- The rational number a finite `float64` stands for (0 for an infinity and for NaN). -/
def F64.toRat : F64 → ℚ
  | .finite s m e => (if s then -1 else 1) * (m : ℚ) * (2 : ℚ) ^ e
  | .inf _ => 0
  | .nan => 0

/-- Go `-x`. -/
def F64.neg : F64 → F64
  | .finite s m e => .finite (!s) m e
  | .inf s => .inf (!s)
  | .nan => .nan

/-- Go `x < y` on `float64`: false as soon as one side is NaN; `-0` and `+0` are equal. -/
def F64.lt : F64 → F64 → Bool
  | .nan, _ => false
  | _, .nan => false
  | .inf s, .inf t => s && !t
  | .inf s, .finite _ _ _ => s
  | .finite _ _ _, .inf t => !t
  | .finite s m e, .finite t m' e' =>
    decide (F64.key (F64.unit m e m' e') s m e < F64.key (F64.unit m e m' e') t m' e')

/-- Go `x <= y` on `float64`: false as soon as one side is NaN. -/
def F64.le : F64 → F64 → Bool
  | .nan, _ => false
  | _, .nan => false
  | .inf s, .inf t => s || !t
  | .inf s, .finite _ _ _ => s
  | .finite _ _ _, .inf t => !t
  | .finite s m e, .finite t m' e' =>
    decide (F64.key (F64.unit m e m' e') s m e ≤ F64.key (F64.unit m e m' e') t m' e')

/-- Go `x * y` on `float64`: the exact product rounded to nearest even. -/
def F64.mul : F64 → F64 → F64
  | .nan, _ => .nan
  | _, .nan => .nan
  | .inf s, .inf t => .inf (xor s t)
  | .inf s, .finite t m _ => if m = 0 then .nan else .inf (xor s t)
  | .finite s m _, .inf t => if m = 0 then .nan else .inf (xor s t)
  | .finite s m e, .finite t m' e' =>
    F64.round (xor s t) (scaleDown (m * m') 1 (-(e + e'))).1 (scaleDown (m * m') 1 (-(e + e'))).2

/-- Go `x / y` on `float64`: the exact quotient rounded to nearest even. -/
def F64.div : F64 → F64 → F64
  | .nan, _ => .nan
  | _, .nan => .nan
  | .inf _, .inf _ => .nan
  | .inf s, .finite t _ _ => .inf (xor s t)
  | .finite s _ _, .inf t => F64.zero (xor s t)
  | .finite s m e, .finite t m' e' =>
    if m' = 0 then (if m = 0 then .nan else .inf (xor s t))
    else F64.round (xor s t) (scaleDown m m' (e' - e)).1 (scaleDown m m' (e' - e)).2

/-- Go `x + y` on `float64`: the exact sum rounded to nearest even; a zero sum of two
opposite numbers is `+0`. -/
def F64.add : F64 → F64 → F64
  | .nan, _ => .nan
  | _, .nan => .nan
  | .inf s, .inf t => if s = t then .inf s else .nan
  | .inf s, .finite _ _ _ => .inf s
  | .finite _ _ _, .inf t => .inf t
  | .finite s m e, .finite t m' e' =>
    let b := F64.unit m e m' e'
    let u := F64.key b s m e + F64.key b t m' e'
    if u = 0 then F64.zero (s && t)
    else F64.round (decide (u < 0)) (scaleDown u.natAbs 1 (-b)).1 (scaleDown u.natAbs 1 (-b)).2

/-- Go `float64(i)` for an integer `i`: the nearest `float64`. -/
def F64.ofInt (i : Int) : F64 := F64.round (decide (i < 0)) i.natAbs 1

/-- Go `math.Modf`: integer and fractional part of `f`, both with the sign of `f`, which
sum to `f`; `Modf(±0) = ±0, ±0`, `Modf(±Inf) = ±Inf, NaN` and `Modf(NaN) = NaN, NaN`. -/
def Modf : F64 → F64 × F64
  | .nan => (.nan, .nan)
  | .inf s => (.inf s, .nan)
  | .finite s m e =>
    if m = 0 then (.finite s m e, .finite s m e)
    else if 0 ≤ e then (.finite s m e, F64.zero s)
    else
      (F64.normalize s (m / 2 ^ (-e).toNat) 0, F64.normalize s (m % 2 ^ (-e).toNat) e)

/-- Go `math.Floor`: the greatest integer value less than or equal to `x`;
`Floor(±0) = ±0`, `Floor(±Inf) = ±Inf`, `Floor(NaN) = NaN`. -/
def Floor : F64 → F64
  | .nan => .nan
  | .inf s => .inf s
  | .finite s m e =>
    if m = 0 ∨ 0 ≤ e then .finite s m e
    else if s then
      F64.normalize true
        (m / 2 ^ (-e).toNat + (if m % 2 ^ (-e).toNat = 0 then 0 else 1)) 0
    else F64.normalize false (m / 2 ^ (-e).toNat) 0

/-- Go `math.Ceil`: the least integer value greater than or equal to `x`, which is
`-Floor(-x)`. -/
def Ceil (x : F64) : F64 := F64.neg (Floor (F64.neg x))

/-- The variables of the loop of Go `math.Pow`: the answer so far is `a1 * 2^ae`, the
current square of the base is `x1 * 2^xe`, and `i` holds the bits of the exponent still to
be used. -/
structure PowState where
  a1 : F64
  ae : Int
  x1 : F64
  xe : Int
  i : Nat

/-- The loop of Go `math.Pow` (repeated squaring, the exponents of two kept apart), run for
at most `fuel` passes. -/
def powLoop : Nat → PowState → PowState
  | 0, p => p
  | fuel + 1, p =>
    if p.i = 0 then p
    else if p.xe < -4096 ∨ 4096 < p.xe then { p with ae := p.ae + p.xe }
    else
      let a1 := if p.i % 2 = 1 then F64.mul p.a1 p.x1 else p.a1
      let ae := if p.i % 2 = 1 then p.ae + p.xe else p.ae
      let x1 := F64.mul p.x1 p.x1
      let xe := 2 * p.xe
      let small := F64.lt x1 (F64.round false 1 2)
      powLoop fuel
        { a1 := a1, ae := ae, x1 := if small then F64.add x1 x1 else x1,
          xe := if small then xe - 1 else xe, i := p.i / 2 }

/-- Go `math.Ldexp(frac, exp)` for a finite `frac`: `frac * 2^exp`, rounded. -/
def Ldexp (frac : F64) (exp : Int) : F64 :=
  match frac with
  | .finite s m e => F64.round s (scaleDown m 1 (-(e + exp))).1 (scaleDown m 1 (-(e + exp))).2
  | x => x

/-- Go `x == y` on `float64`: false as soon as one side is NaN; `-0` equals `+0`. -/
def F64.eq (x y : F64) : Bool := F64.le x y && F64.le y x

/-- Go `math.Pow(10, float64(precision))`, after `src/math/pow.go` with base 10 and an
exponent that is a whole number: `y == 0` gives 1 and `y == 1` the base; an exponent of
size `2^63` or more overflows to `+Inf` or underflows to 0; otherwise the loop of repeated
squaring runs from `Frexp(10) = (0.625, 4)` over the bits of `yi = |y| < 2^63`, for which
64 passes are enough; the answer is inverted for a negative exponent, and `Ldexp` puts the
power of two back. -/
def Pow10 (precision : Int) : F64 :=
  let y := F64.ofInt precision
  if F64.eq y (F64.ofInt 0) then F64.ofInt 1
  else if F64.eq y (F64.ofInt 1) then F64.ofInt 10
  else
    match y with
    | .finite s m e =>
      let yi := m * 2 ^ e.toNat / 2 ^ (-e).toNat
      if 2 ^ 63 ≤ yi then (if s then F64.zero false else .inf false)
      else
        let p := powLoop 64
          { a1 := F64.ofInt 1, ae := 0, x1 := F64.round false 5 8, xe := 4, i := yi }
        if s then Ldexp (F64.div (F64.ofInt 1) p.a1) (-p.ae) else Ldexp p.a1 p.ae
    | .inf s => if s then F64.zero false else .inf false
    | .nan => .nan

/-! ## Rounding -/

/-- Go `Rounder`: round `num` at `precision` decimals, `intermed` being the threshold that
decides between ceiling and floor. -/
def Rounder (num : F64) (intermed : F64) (precision : Int) : F64 :=
  let pow := Pow10 precision
  let digit := F64.mul pow num
  let div := (Modf digit).2
  let round : F64 :=
    if F64.lt (F64.zero false) num then
      if F64.le intermed div then Ceil digit else Floor digit
    else
      if F64.le intermed div then Floor digit else Ceil digit
  F64.div round pow

/-! ## Slice membership -/

/-- Go `Contains`: whether the slice `s` contains the string `e`; the `range` loop returns
at the first element equal to `e`. -/
def Contains (s : List String) (e : String) : Bool :=
  match s with
  | [] => false
  | a :: rest => if a = e then true else Contains rest e

/-! ## Lemmas on masks and shifts -/

theorem testBit_eq_false_of_lt_two_pow {m k i : ℕ} (hm : m < 2 ^ k) (hi : ¬ i < k) :
    m.testBit i = false := by
  apply Nat.testBit_lt_two_pow
  exact lt_of_lt_of_le hm (Nat.pow_le_pow_right (by decide) (by omega))

theorem ldiff_mask (m k n : ℕ) (hm : m < 2 ^ k) :
    Nat.ldiff m n = m &&& (2 ^ k - (n % 2 ^ k + 1)) := by
  apply Nat.eq_of_testBit_eq
  intro i
  rw [Nat.testBit_ldiff, Nat.testBit_and,
    Nat.testBit_two_pow_sub_succ (Nat.mod_lt _ (by positivity)), Nat.testBit_mod_two_pow]
  by_cases hi : i < k
  · simp [hi]
  · simp [testBit_eq_false_of_lt_two_pow hm hi]

/-- Masking a two's-complement integer with a non-negative mask below `2^k` only looks at
the low `k` bits of the integer. -/
theorem land_natMask (m k : ℕ) (hm : m < 2 ^ k) (x : ℤ) :
    Int.land (m : ℤ) x = ((m &&& (x % 2 ^ k).toNat : ℕ) : ℤ) := by
  cases x with
  | ofNat n =>
    show ((m &&& n : ℕ) : ℤ) = _
    congr 1
    have h1 : ((Int.ofNat n) % 2 ^ k).toNat = n % 2 ^ k := by
      have : ((n : ℤ)) % (2:ℤ) ^ k = ((n % 2 ^ k : ℕ) : ℤ) := by
        push_cast; rfl
      show ((n : ℤ) % 2 ^ k).toNat = _
      rw [this]; exact Int.toNat_natCast _
    rw [h1]
    apply Nat.eq_of_testBit_eq
    intro i
    rw [Nat.testBit_and, Nat.testBit_and, Nat.testBit_mod_two_pow]
    by_cases hi : i < k
    · simp [hi]
    · simp [testBit_eq_false_of_lt_two_pow hm hi]
  | negSucc n =>
    show ((Nat.ldiff m n : ℕ) : ℤ) = _
    congr 1
    have h1 : ((Int.negSucc n) % 2 ^ k).toNat = 2 ^ k - (n % 2 ^ k + 1) := by
      have hlt : n % 2 ^ k < 2 ^ k := Nat.mod_lt _ (by positivity)
      have : (Int.negSucc n) % (2:ℤ) ^ k = ((2 ^ k - (n % 2 ^ k + 1) : ℕ) : ℤ) := by
        rw [Int.emod_negSucc]
        have : ((2:ℤ) ^ k).natAbs = 2 ^ k := by simp [Int.natAbs_pow]
        rw [this, Int.subNatNat_of_le (by omega)]
      rw [this]; exact Int.toNat_natCast _
    rw [h1]
    exact ldiff_mask m k n hm

theorem hi_mask (u : ℕ) (hu : u < 2 ^ 32) : (0xFFFF0000 &&& u) >>> 16 = u / 2 ^ 16 := by
  apply Nat.eq_of_testBit_eq
  intro i
  rw [Nat.testBit_shiftRight, Nat.testBit_and, ← Nat.shiftRight_eq_div_pow,
    Nat.testBit_shiftRight]
  have h0 : (0xFFFF0000 : ℕ) = (2 ^ 16 - 1) <<< 16 := by decide
  rw [h0, Nat.testBit_shiftLeft, Nat.testBit_two_pow_sub_one]
  by_cases hi : i < 16
  · simp [hi]
  · have : u.testBit (16 + i) = false :=
      testBit_eq_false_of_lt_two_pow hu (by omega)
    simp [this]

theorem lo_mask (u : ℕ) : (0x0000FFFF &&& u) = u % 2 ^ 16 := by
  rw [Nat.and_comm]
  exact Nat.and_pow_two_sub_one_eq_mod u 16

/-- The arithmetic content of the expression inside `Encrypt`: the two half-words of the
low 32 bits of `x`, exchanged. -/
theorem swap_expr (x : ℤ) :
    ((Int.land 0x0000FFFF x) <<< 16) + ((Int.land 0xFFFF0000 x) >>> 16)
      = (x % 2 ^ 16) * 2 ^ 16 + (x % 2 ^ 32) / 2 ^ 16 := by
  have hu : (x % 2 ^ 32).toNat < 2 ^ 32 := by
    have := Int.emod_lt_of_pos x (show (0:ℤ) < 2 ^ 32 by norm_num)
    have := Int.emod_nonneg x (show (2:ℤ) ^ 32 ≠ 0 by norm_num)
    omega
  have e1 : Int.land 0x0000FFFF x = ((0x0000FFFF &&& (x % 2 ^ 32).toNat : ℕ) : ℤ) :=
    land_natMask 0x0000FFFF 32 (by norm_num) x
  have e2 : Int.land 0xFFFF0000 x = ((0xFFFF0000 &&& (x % 2 ^ 32).toNat : ℕ) : ℤ) :=
    land_natMask 0xFFFF0000 32 (by norm_num) x
  rw [e1, e2, lo_mask]
  have s1 := Int.shiftLeft_coe_nat ((x % 2 ^ 32).toNat % 2 ^ 16) 16
  have s2 := Int.shiftRight_coe_nat (0xFFFF0000 &&& (x % 2 ^ 32).toNat) 16
  rw [hi_mask _ hu] at s2
  rw [Nat.shiftLeft_eq] at s1
  simp only [Nat.cast_ofNat] at s1 s2
  rw [s1, s2]
  push_cast
  omega


/-! ## Lemmas on the decimal conversions -/

theorem digitChar_toNat (d : ℕ) (hd : d < 10) : (digitChar d).toNat = 48 + d := by
  interval_cases d <;> decide

theorem digitChar_ne_minus (d : ℕ) (hd : d < 10) : digitChar d ≠ '-' := by
  interval_cases d <;> decide

theorem parseDigits_digitChar (d : ℕ) (hd : d < 10) (cs : List Char) (a : ℕ) :
    parseDigits (digitChar d :: cs) a = parseDigits cs (10 * a + d) := by
  have h := digitChar_toNat d hd
  simp only [parseDigits, h]
  rw [if_pos (by omega)]
  congr 1
  omega

theorem parseDigits_natDigits (fuel : ℕ) :
    ∀ (n : ℕ) (acc : List Char), n < 10 ^ fuel →
      parseDigits (natDigits fuel n acc) 0 = parseDigits acc n := by
  induction fuel with
  | zero =>
    intro n acc h
    have : n = 0 := by simpa using h
    subst this
    rfl
  | succ f ih =>
    intro n acc h
    unfold natDigits
    by_cases h10 : n < 10
    · rw [if_pos h10, parseDigits_digitChar n h10]
      simp
    · rw [if_neg h10, ih (n / 10) _ (by rw [pow_succ] at h; omega),
        parseDigits_digitChar (n % 10) (Nat.mod_lt _ (by decide))]
      congr 1
      omega

theorem parseDigits_natDecimal (n : ℕ) : parseDigits (natDecimal n) 0 = some n := by
  unfold natDecimal
  rw [parseDigits_natDigits (n + 1) n [] ?_]
  · rfl
  · exact lt_of_lt_of_le (Nat.lt_pow_self (by decide) n)
      (Nat.pow_le_pow_right (by decide) (by omega))

theorem natDigits_head (fuel : ℕ) :
    ∀ (n : ℕ) (acc : List Char),
      ∃ d cs, d < 10 ∧ natDigits (fuel + 1) n acc = digitChar d :: cs := by
  induction fuel with
  | zero =>
    intro n acc
    unfold natDigits
    by_cases h10 : n < 10
    · exact ⟨n, acc, h10, by rw [if_pos h10]⟩
    · exact ⟨n % 10, acc, Nat.mod_lt _ (by decide), by rw [if_neg h10]; rfl⟩
  | succ f ih =>
    intro n acc
    unfold natDigits
    by_cases h10 : n < 10
    · exact ⟨n, acc, h10, by rw [if_pos h10]⟩
    · rw [if_neg h10]
      exact ih (n / 10) _

theorem parseInt_natDecimal (n : ℕ) : parseInt (natDecimal n) = (n : ℤ) := by
  obtain ⟨d, cs, hd, hcs⟩ := natDigits_head n n []
  have hp := parseDigits_natDecimal n
  unfold natDecimal at hp ⊢
  rw [hcs] at hp ⊢
  simp only [parseInt]
  rw [if_neg (digitChar_ne_minus d hd), hp]

theorem parseInt_minus_natDecimal (n : ℕ) : parseInt ('-' :: natDecimal n) = -(n : ℤ) := by
  obtain ⟨d, cs, hd, hcs⟩ := natDigits_head n n []
  have hp := parseDigits_natDecimal n
  unfold natDecimal at hp ⊢
  simp only [parseInt]
  rw [if_pos trivial, if_neg (by rw [hcs]; exact List.cons_ne_nil _ _), hp]

/-- The two conversions are mutually inverse on integers: the decimal string of an integer
converts back to that integer. -/
theorem ToInt_ToString (i : ℤ) : ToInt (.str (ToString (.int i))) = i := by
  simp only [ToString, ToInt]
  by_cases h : i < 0
  · rw [if_pos h]
    show parseInt ('-' :: natDecimal i.natAbs) = i
    rw [parseInt_minus_natDecimal]
    omega
  · rw [if_neg h]
    show parseInt (natDecimal i.natAbs) = i
    rw [parseInt_natDecimal]
    omega

theorem ToString_injective {i j : ℤ} (h : ToString (.int i) = ToString (.int j)) : i = j := by
  have := congrArg (fun s => ToInt (.str s)) h
  simpa [ToInt_ToString] using this

/-! ## Lemmas on the obfuscator -/

/-- The integer denoted by `Encrypt(n)`. -/
theorem ToInt_Encrypt (n : Value) :
    ToInt (.str (Encrypt n)) = (ToInt n % 2 ^ 16) * 2 ^ 16 + (ToInt n % 2 ^ 32) / 2 ^ 16 := by
  unfold Encrypt
  simp only []
  rw [ToInt_ToString, swap_expr]

theorem Encrypt_eq (n : Value) :
    Encrypt n = ToString (.int ((ToInt n % 2 ^ 16) * 2 ^ 16 + (ToInt n % 2 ^ 32) / 2 ^ 16)) := by
  unfold Encrypt
  simp only []
  rw [swap_expr]


theorem swap_swap (x : ℤ) (h0 : 0 ≤ x) (h1 : x < 2 ^ 32) :
    (((x % 2 ^ 16) * 2 ^ 16 + (x % 2 ^ 32) / 2 ^ 16) % 2 ^ 16) * 2 ^ 16
      + (((x % 2 ^ 16) * 2 ^ 16 + (x % 2 ^ 32) / 2 ^ 16) % 2 ^ 32) / 2 ^ 16 = x := by
  have hm : x % 2 ^ 32 = x := Int.emod_eq_of_lt h0 h1
  rw [hm]
  have hlo0 : 0 ≤ x % 2 ^ 16 := by omega
  have hlo1 : x % 2 ^ 16 < 2 ^ 16 := by omega
  have hhi0 : 0 ≤ x / 2 ^ 16 := by omega
  have hhi1 : x / 2 ^ 16 < 2 ^ 16 := by omega
  have hx : x = (x / 2 ^ 16) * 2 ^ 16 + x % 2 ^ 16 := by omega
  generalize x % 2 ^ 16 = lo at *
  generalize x / 2 ^ 16 = hi at *
  have e1 : (lo * 2 ^ 16 + hi) % 2 ^ 16 = hi := by omega
  have e2 : (lo * 2 ^ 16 + hi) % 2 ^ 32 = lo * 2 ^ 16 + hi := by omega
  have e3 : (lo * 2 ^ 16 + hi) / 2 ^ 16 = lo := by omega
  rw [e1, e2, e3]
  omega

theorem swap_range (x : ℤ) :
    0 ≤ (x % 2 ^ 16) * 2 ^ 16 + (x % 2 ^ 32) / 2 ^ 16 ∧
      (x % 2 ^ 16) * 2 ^ 16 + (x % 2 ^ 32) / 2 ^ 16 < 2 ^ 32 := by
  omega

/-- Applying `Encrypt` to the string produced by `Encrypt` gives back an identifier of
the 32-bit range. -/
theorem ToInt_Encrypt_Encrypt (x : ℤ) (h0 : 0 ≤ x) (h1 : x < 2 ^ 32) :
    ToInt (.str (Encrypt (.str (Encrypt (.int x))))) = x := by
  rw [ToInt_Encrypt (.str (Encrypt (.int x))), ToInt_Encrypt (.int x)]
  exact swap_swap x h0 h1

/-! ## Properties of the obfuscator -/

/-- C1: round trip. For every integer `id` with `0 < id < 2^32`, `Encrypt(id)` is non-zero
(as a number and as a string) and `Decrypt(Encrypt(id))` returns `(id, nil)`: the original
identifier and no error. -/
theorem C1_round_trip (id : ℤ) (h0 : 0 < id) (h1 : id < 2 ^ 32) :
    ToInt (.str (Encrypt (.int id))) ≠ 0 ∧ Encrypt (.int id) ≠ ToString (.int 0) ∧
      Decrypt (.str (Encrypt (.int id))) = (id, none) := by
  have hne : ToInt (.str (Encrypt (.int id))) ≠ 0 := by
    intro hz
    have h2 := ToInt_Encrypt_Encrypt id (le_of_lt h0) h1
    rw [ToInt_Encrypt (.str (Encrypt (.int id))), hz] at h2
    have h3 : ((0 : ℤ) % 2 ^ 16) * 2 ^ 16 + ((0 : ℤ) % 2 ^ 32) / 2 ^ 16 = 0 := by decide
    rw [h3] at h2
    omega
  refine ⟨hne, ?_, ?_⟩
  · intro h
    apply hne
    rw [h, ToInt_ToString]
  · unfold Decrypt
    simp only []
    rw [ToInt_Encrypt_Encrypt id (le_of_lt h0) h1, if_pos (ne_of_gt h0)]

/-- Witness of C1 at `id = 12345`. -/
theorem C1_round_trip_witness :
    ToInt (.str (Encrypt (.int 12345))) ≠ 0 ∧ Encrypt (.int 12345) ≠ ToString (.int 0) ∧
      Decrypt (.str (Encrypt (.int 12345))) = (12345, none) :=
  C1_round_trip 12345 (by decide) (by decide)

/-- C2 fails outside the 32-bit range: `id = 2^32 + 1` is a value of Go's `int`,
`Encrypt(id)` is 65536 and `Encrypt(Encrypt(id))` is 1, neither is zero, and the second
is not `id`. -/
theorem C2_counterexample :
    (-2 ^ 63 ≤ (4294967297 : ℤ) ∧ (4294967297 : ℤ) < 2 ^ 63) ∧
      ToInt (.str (Encrypt (.int 4294967297))) = 65536 ∧
      ToInt (.str (Encrypt (.str (Encrypt (.int 4294967297))))) = 1 ∧
      ToInt (.str (Encrypt (.int 4294967297))) ≠ 0 ∧
      ToInt (.str (Encrypt (.str (Encrypt (.int 4294967297))))) ≠ 0 ∧
      ToInt (.str (Encrypt (.str (Encrypt (.int 4294967297))))) ≠ 4294967297 := by
  decide

/-- C2 (amended): self-inverse on the 32-bit range. For every integer `id` with
`0 <= id < 2^32`, `Encrypt(Encrypt(id)) == id`, as numbers and as decimal strings. -/
theorem C2_self_inverse (id : ℤ) (h0 : 0 ≤ id) (h1 : id < 2 ^ 32) :
    ToInt (.str (Encrypt (.str (Encrypt (.int id))))) = id ∧
      Encrypt (.str (Encrypt (.int id))) = ToString (.int id) := by
  refine ⟨ToInt_Encrypt_Encrypt id h0 h1, ?_⟩
  rw [Encrypt_eq (.str (Encrypt (.int id))), ToInt_Encrypt (.int id)]
  show ToString (.int _) = _
  congr 2
  exact swap_swap id h0 h1

/-- Witness of C2 (amended) at `id = 65537`. -/
theorem C2_self_inverse_witness :
    ToInt (.str (Encrypt (.str (Encrypt (.int 65537))))) = 65537 ∧
      Encrypt (.str (Encrypt (.int 65537))) = ToString (.int 65537) :=
  C2_self_inverse 65537 (by decide) (by decide)

/-- C3: `Decrypt` fails exactly on the zero sentinel. For every input `v`, `Decrypt(v)`
returns a non-nil error if and only if `Encrypt(v)` denotes 0; then the returned id is 0
and the error is a `DecryptionError` whose `Values` is `v` (its `Message` is empty);
otherwise the result is `(Encrypt(v) as integer, nil)`. -/
theorem C3_decrypt_sentinel (v : Value) :
    ((Decrypt v).2 ≠ none ↔ ToInt (.str (Encrypt v)) = 0) ∧
      Decrypt v =
        (if ToInt (.str (Encrypt v)) = 0 then (0, some { Message := "", Values := v })
         else (ToInt (.str (Encrypt v)), none)) := by
  unfold Decrypt
  simp only []
  by_cases h : ToInt (.str (Encrypt v)) = 0
  · simp [h]
  · simp [h]

/-- C4: `Encrypt` is the 16-bit half-word swap. For every integer `x` with
`0 <= x < 2^32`, `Encrypt(x) == (x mod 2^16) * 2^16 + (x div 2^16)`; bits 16-31 of the
result are bits 0-15 of `x` and bits 0-15 of the result are bits 16-31 of `x`. -/
theorem C4_half_word_swap (x : ℤ) (h0 : 0 ≤ x) (h1 : x < 2 ^ 32) :
    Encrypt (.int x) = ToString (.int ((x % 2 ^ 16) * 2 ^ 16 + x / 2 ^ 16)) ∧
      ToInt (.str (Encrypt (.int x))) = (x % 2 ^ 16) * 2 ^ 16 + x / 2 ^ 16 ∧
      ToInt (.str (Encrypt (.int x))) / 2 ^ 16 = x % 2 ^ 16 ∧
      ToInt (.str (Encrypt (.int x))) % 2 ^ 16 = x / 2 ^ 16 := by
  have hm : x % 2 ^ 32 = x := Int.emod_eq_of_lt h0 h1
  have hv : ToInt (.str (Encrypt (.int x))) = (x % 2 ^ 16) * 2 ^ 16 + x / 2 ^ 16 := by
    rw [ToInt_Encrypt]
    show (x % 2 ^ 16) * 2 ^ 16 + (x % 2 ^ 32) / 2 ^ 16 = _
    rw [hm]
  refine ⟨?_, hv, ?_, ?_⟩
  · rw [Encrypt_eq]
    show ToString (.int ((x % 2 ^ 16) * 2 ^ 16 + (x % 2 ^ 32) / 2 ^ 16)) = _
    rw [hm]
  · rw [hv]; omega
  · rw [hv]; omega

/-- Witness of C4 at `x = 0x12345678`, whose swap is `0x56781234`. -/
theorem C4_half_word_swap_witness :
    Encrypt (.int 0x12345678) = ToString (.int 0x56781234) ∧
      ToInt (.str (Encrypt (.int 0x12345678))) = 0x56781234 :=
  ⟨(C4_half_word_swap 0x12345678 (by decide) (by decide)).1,
    (C4_half_word_swap 0x12345678 (by decide) (by decide)).2.1⟩

/-- C5 fails outside the 32-bit range: `Decrypt(2^32 + 1)` succeeds with id 65536, and
`Encrypt(65536)` is 1, not `2^32 + 1`. -/
theorem C5_counterexample :
    (-2 ^ 63 ≤ (4294967297 : ℤ) ∧ (4294967297 : ℤ) < 2 ^ 63) ∧
      Decrypt (.int 4294967297) = (65536, none) ∧
      Encrypt (.int 65536) = "1" ∧
      ToInt (.str (Encrypt (.int 65536))) ≠ 4294967297 := by
  decide

/-- C5 (amended): `Encrypt` undoes `Decrypt` on the 32-bit range. For every `x` with
`0 <= x < 2^32` on which `Decrypt(x)` succeeds with result `id`, `Encrypt(id) == x`. -/
theorem C5_encrypt_undoes_decrypt (x id : ℤ) (h0 : 0 ≤ x) (h1 : x < 2 ^ 32)
    (hd : Decrypt (.int x) = (id, none)) :
    ToInt (.str (Encrypt (.int id))) = x ∧ Encrypt (.int id) = ToString (.int x) := by
  have hid : id = (x % 2 ^ 16) * 2 ^ 16 + (x % 2 ^ 32) / 2 ^ 16 := by
    unfold Decrypt at hd
    simp only [] at hd
    rw [ToInt_Encrypt (.int x)] at hd
    by_cases hz : (ToInt (.int x) % 2 ^ 16) * 2 ^ 16 + (ToInt (.int x) % 2 ^ 32) / 2 ^ 16 ≠ 0
    · rw [if_pos hz] at hd
      exact (congrArg Prod.fst hd).symm
    · rw [if_neg hz] at hd
      exact absurd (congrArg Prod.snd hd) (by simp)
  have hs := swap_swap x h0 h1
  refine ⟨?_, ?_⟩
  · rw [ToInt_Encrypt (.int id)]
    show (id % 2 ^ 16) * 2 ^ 16 + (id % 2 ^ 32) / 2 ^ 16 = x
    rw [hid]; exact hs
  · rw [Encrypt_eq (.int id)]
    show ToString (.int ((id % 2 ^ 16) * 2 ^ 16 + (id % 2 ^ 32) / 2 ^ 16)) = _
    rw [hid, hs]

/-- Witness of C5 (amended) at `x = 65536`, which decrypts to 1. -/
theorem C5_encrypt_undoes_decrypt_witness :
    Decrypt (.int 65536) = (1, none) ∧
      ToInt (.str (Encrypt (.int 1))) = 65536 ∧ Encrypt (.int 1) = ToString (.int 65536) :=
  ⟨by decide, C5_encrypt_undoes_decrypt 65536 1 (by decide) (by decide) (by decide)⟩

/-- C6: `Encrypt` is a permutation of the 32-bit range. For `x`, `y` in `[0, 2^32)`,
equal results (as numbers, and hence as strings) force `x == y`; the result of `Encrypt`
on the range stays in the range; and every value of the range is `Encrypt` of some value
of the range. -/
theorem C6_permutation :
    (∀ x y : ℤ, 0 ≤ x → x < 2 ^ 32 → 0 ≤ y → y < 2 ^ 32 →
        ToInt (.str (Encrypt (.int x))) = ToInt (.str (Encrypt (.int y))) → x = y) ∧
      (∀ x y : ℤ, 0 ≤ x → x < 2 ^ 32 → 0 ≤ y → y < 2 ^ 32 →
        Encrypt (.int x) = Encrypt (.int y) → x = y) ∧
      (∀ x : ℤ, 0 ≤ x → x < 2 ^ 32 →
        0 ≤ ToInt (.str (Encrypt (.int x))) ∧ ToInt (.str (Encrypt (.int x))) < 2 ^ 32) ∧
      (∀ v : ℤ, 0 ≤ v → v < 2 ^ 32 →
        ∃ x : ℤ, 0 ≤ x ∧ x < 2 ^ 32 ∧ ToInt (.str (Encrypt (.int x))) = v ∧
          Encrypt (.int x) = ToString (.int v)) := by
  have inj : ∀ x y : ℤ, 0 ≤ x → x < 2 ^ 32 → 0 ≤ y → y < 2 ^ 32 →
      ToInt (.str (Encrypt (.int x))) = ToInt (.str (Encrypt (.int y))) → x = y := by
    intro x y hx0 hx1 hy0 hy1 h
    have ex := ToInt_Encrypt_Encrypt x hx0 hx1
    have ey := ToInt_Encrypt_Encrypt y hy0 hy1
    rw [ToInt_Encrypt (.str (Encrypt (.int x))), h,
      ← ToInt_Encrypt (.str (Encrypt (.int y))), ey] at ex
    exact ex.symm
  refine ⟨inj, ?_, ?_, ?_⟩
  · intro x y hx0 hx1 hy0 hy1 h
    exact inj x y hx0 hx1 hy0 hy1 (by rw [h])
  · intro x _ _
    rw [ToInt_Encrypt]
    exact swap_range _
  · intro v hv0 hv1
    refine ⟨(v % 2 ^ 16) * 2 ^ 16 + (v % 2 ^ 32) / 2 ^ 16, (swap_range v).1, (swap_range v).2,
      ?_, ?_⟩
    · rw [ToInt_Encrypt]
      exact swap_swap v hv0 hv1
    · rw [Encrypt_eq]
      show ToString (.int _) = _
      congr 2
      exact swap_swap v hv0 hv1

/-- Witness of C6: 1 and 65536 are exchanged, and 65536 is reached from the range. -/
theorem C6_permutation_witness :
    ∃ x : ℤ, 0 ≤ x ∧ x < 2 ^ 32 ∧ ToInt (.str (Encrypt (.int x))) = 65536 ∧
      Encrypt (.int x) = ToString (.int 65536) :=
  C6_permutation.2.2.2 65536 (by decide) (by decide)


/-! ## Lemmas on the generator loop -/

theorem loopBody_i (a : String) (g : LoopState) :
    (loopBody a g).i = if examined g < a.data.length then g.i - 1 else g.i := by
  unfold loopBody examined
  by_cases hr : g.remain = 0 <;> simp only [hr, if_true, if_false] <;> split <;> rfl

theorem loopBody_b (a : String) (g : LoopState) :
    (loopBody a g).b =
      if h : examined g < a.data.length then g.b.set g.i.toNat (a.data.get ⟨examined g, h⟩)
      else g.b := by
  unfold loopBody examined
  by_cases hr : g.remain = 0 <;> simp only [hr, if_true, if_false] <;> split <;> rfl

theorem loopBody_cache (a : String) (g : LoopState) :
    (loopBody a g).cache =
      (if g.remain = 0 then g.src.Int63.1 else g.cache) >>> letterIdxBits := by
  unfold loopBody
  by_cases hr : g.remain = 0 <;> simp only [hr, if_true, if_false] <;> split <;> rfl

theorem loopBody_remain (a : String) (g : LoopState) :
    (loopBody a g).remain = (if g.remain = 0 then letterIdxMax else g.remain) - 1 := by
  unfold loopBody
  by_cases hr : g.remain = 0 <;> simp only [hr, if_true, if_false] <;> split <;> rfl

theorem loopBody_src (a : String) (g : LoopState) :
    (loopBody a g).src = if g.remain = 0 then g.src.Int63.2 else g.src := by
  unfold loopBody
  by_cases hr : g.remain = 0 <;> simp only [hr, if_true, if_false] <;> split <;> rfl


theorem pending_zero (g : LoopState) : pending g 0 = examined g := by
  unfold pending examined chunkSeq Source.Int63
  by_cases hr : g.remain = 0
  · simp [hr]
  · have : 0 < g.remain := Nat.pos_of_ne_zero hr
    simp [hr, this]

theorem pending_loopBody (a : String) (g : LoopState) (k : ℕ) :
    pending (loopBody a g) k = pending g (k + 1) := by
  unfold pending
  rw [loopBody_cache, loopBody_remain, loopBody_src]
  by_cases hr : g.remain = 0
  · simp only [hr, if_true]
    have h10 : letterIdxMax = 10 := rfl
    have h6 : letterIdxBits = 6 := rfl
    rw [if_neg (Nat.not_lt_zero (k + 1))]
    by_cases hk : k < letterIdxMax - 1
    · rw [if_pos hk]
      unfold chunkSeq Source.Int63
      simp only [h10, h6] at hk ⊢
      have e1 : (k + 1 - 0) / 10 = 0 := by omega
      have e2 : (k + 1 - 0) % 10 = k + 1 := by omega
      rw [e1, e2, ← Nat.shiftRight_add]
      congr 2
      omega
    · rw [if_neg hk]
      unfold chunkSeq Source.Int63
      simp only [h10, h6] at hk ⊢
      have e1 : g.src.pos + 1 + (k - (10 - 1)) / 10 = g.src.pos + (k + 1 - 0) / 10 := by omega
      have e2 : (k - (10 - 1)) % 10 = (k + 1 - 0) % 10 := by omega
      rw [e1, e2]
  · simp only [hr, if_false]
    by_cases hk : k < g.remain - 1
    · rw [if_pos hk, if_pos (by omega), ← Nat.shiftRight_add]
      congr 2
      have h6 : letterIdxBits = 6 := rfl
      rw [h6]
      omega
    · rw [if_neg hk, if_neg (by omega)]
      congr 1
      omega

theorem count_pending_succ (a : String) (g : LoopState) (K : ℕ) :
    Nat.count (fun k => pending g k < a.data.length) (K + 1)
      = (if examined g < a.data.length then 1 else 0)
        + Nat.count (fun k => pending (loopBody a g) k < a.data.length) K := by
  rw [Nat.add_comm K 1, Nat.count_add]
  congr 1
  · rw [Nat.count_succ, Nat.count_zero, pending_zero]
    simp
  · congr 1
    funext k
    rw [pending_loopBody, Nat.add_comm]

/-- The loop leaves within `K` passes exactly when the next `K` chunks hold enough
accepted ones to fill the positions `0..i`. -/
theorem runLoop_isSome_iff (a : String) (K : ℕ) :
    ∀ g : LoopState, (runLoop a K g).isSome = true ↔
      (g.i + 1).toNat ≤ Nat.count (fun k => pending g k < a.data.length) K := by
  induction K with
  | zero =>
    intro g
    unfold runLoop
    rw [Nat.count_zero]
    by_cases hi : 0 ≤ g.i
    · rw [if_pos hi]
      simp
      omega
    · rw [if_neg hi]
      simp
      omega
  | succ K ih =>
    intro g
    unfold runLoop
    by_cases hi : 0 ≤ g.i
    · rw [if_pos hi, ih, count_pending_succ, loopBody_i]
      by_cases hacc : examined g < a.data.length
      · rw [if_pos hacc, if_pos hacc]
        omega
      · rw [if_neg hacc, if_neg hacc]
        omega
    · rw [if_neg hi]
      simp
      omega


theorem pending_init (src : Source) (b : List Char) (i : ℤ) (k : ℕ) :
    pending { b := b, i := i, cache := src.Int63.1, remain := letterIdxMax, src := src.Int63.2 } k
      = chunkSeq src k := by
  unfold pending chunkSeq Source.Int63
  have h10 : letterIdxMax = 10 := rfl
  simp only [h10]
  by_cases hk : k < 10
  · rw [if_pos hk]
    have e1 : k / 10 = 0 := by omega
    have e2 : k % 10 = k := by omega
    rw [e1, e2]
    rfl
  · rw [if_neg hk]
    have e1 : src.pos + 1 + (k - 10) / 10 = src.pos + k / 10 := by omega
    have e2 : (k - 10) % 10 = k % 10 := by omega
    rw [e1, e2]

/-- A call with `n >= 0` returns within `K` passes of the loop exactly when the first `K`
chunks of the source hold at least `n` accepted ones. -/
theorem generate_returned_iff (a : String) (src : Source) (n : ℤ) (hn : 0 ≤ n) (K : ℕ) :
    (∃ s rest, generate a src n K = .returned s rest) ↔
      n.toNat ≤ Nat.count (fun k => chunkSeq src k < a.data.length) K := by
  have key := runLoop_isSome_iff a K
    { b := List.replicate n.toNat (Char.ofNat 0), i := n - 1, cache := src.Int63.1,
      remain := letterIdxMax, src := src.Int63.2 }
  simp only [pending_init] at key
  have e : (n - 1 + 1).toNat = n.toNat := by rw [Int.sub_add_cancel]
  rw [e] at key
  rw [← key]
  unfold generate
  rw [if_neg (not_lt.mpr hn)]
  simp only []
  cases h : runLoop a K
    { b := List.replicate n.toNat (Char.ofNat 0), i := n - 1, cache := src.Int63.1,
      remain := letterIdxMax, src := src.Int63.2 } with
  | none => simp
  | some g => simp

/-- Loop invariant: the slice keeps its length, and every position above `i` holds a
character of the alphabet. -/
theorem loopBody_invariant (a : String) (N : ℕ) (g : LoopState) (hi : 0 ≤ g.i)
    (hlen : g.b.length = N) (hiN : g.i < N)
    (hfill : ∀ j : ℕ, g.i < (j : ℤ) → j < N → ∃ c ∈ a.data, g.b[j]? = some c) :
    (loopBody a g).b.length = N ∧ (loopBody a g).i < N ∧
      ∀ j : ℕ, (loopBody a g).i < (j : ℤ) → j < N →
        ∃ c ∈ a.data, (loopBody a g).b[j]? = some c := by
  rw [loopBody_i, loopBody_b]
  by_cases hacc : examined g < a.data.length
  · rw [if_pos hacc, dif_pos hacc, List.length_set]
    refine ⟨hlen, by omega, ?_⟩
    intro j hj hjN
    rw [List.getElem?_set]
    by_cases hji : g.i.toNat = j
    · rw [if_pos hji, if_pos (by omega)]
      exact ⟨_, List.get_mem _ _ _, rfl⟩
    · rw [if_neg hji]
      exact hfill j (by omega) hjN
  · rw [if_neg hacc, dif_neg hacc]
    exact ⟨hlen, hiN, hfill⟩

theorem runLoop_invariant (a : String) (N : ℕ) (K : ℕ) :
    ∀ g g' : LoopState, runLoop a K g = some g' → g.b.length = N → g.i < N →
      (∀ j : ℕ, g.i < (j : ℤ) → j < N → ∃ c ∈ a.data, g.b[j]? = some c) →
      g'.b.length = N ∧ ∀ j : ℕ, j < N → ∃ c ∈ a.data, g'.b[j]? = some c := by
  induction K with
  | zero =>
    intro g g' h hlen _ hfill
    unfold runLoop at h
    by_cases hi : 0 ≤ g.i
    · rw [if_pos hi] at h
      exact absurd h (by simp)
    · rw [if_neg hi] at h
      have hg : g = g' := Option.some.inj h
      subst hg
      exact ⟨hlen, fun j hj => hfill j (by omega) hj⟩
  | succ K ih =>
    intro g g' h hlen hiN hfill
    unfold runLoop at h
    by_cases hi : 0 ≤ g.i
    · rw [if_pos hi] at h
      obtain ⟨h1, h2, h3⟩ := loopBody_invariant a N g hi hlen hiN hfill
      exact ih (loopBody a g) g' h h1 h2 h3
    · rw [if_neg hi] at h
      have hg : g = g' := Option.some.inj h
      subst hg
      exact ⟨hlen, fun j hj => hfill j (by omega) hj⟩

/-- What a returning call returns: `n` characters, all of the alphabet. -/
theorem generate_returned (a : String) (src : Source) (n : ℤ) (hn : 0 ≤ n) (K : ℕ)
    (s : String) (rest : Source) (h : generate a src n K = .returned s rest) :
    s.data.length = n.toNat ∧ ∀ c ∈ s.data, c ∈ a.data := by
  unfold generate at h
  rw [if_neg (not_lt.mpr hn)] at h
  simp only [] at h
  cases hrun : runLoop a K
    { b := List.replicate n.toNat (Char.ofNat 0), i := n - 1, cache := src.Int63.1,
      remain := letterIdxMax, src := src.Int63.2 } with
  | none =>
    rw [hrun] at h
    exact absurd h (by simp)
  | some g =>
    rw [hrun] at h
    simp only [Outcome.returned.injEq] at h
    obtain ⟨hs, _⟩ := h
    subst hs
    obtain ⟨h1, h2⟩ := runLoop_invariant a n.toNat K _ g hrun (by simp) (by simp)
      (by
        intro j hj hjN
        simp at hj
        omega)
    refine ⟨h1, ?_⟩
    intro c hc
    obtain ⟨j, hj, hjc⟩ := List.mem_iff_getElem.mp hc
    obtain ⟨c', hc', hget⟩ := h2 j (by simpa [h1] using hj)
    have hj' : j < g.b.length := by simpa using hj
    rw [List.getElem?_eq_getElem hj'] at hget
    have : c = c' := by
      have := Option.some.inj hget
      rw [← hjc]
      exact this
    rw [this]
    exact hc'

theorem utf8ByteSize_of_ascii (l : List Char) (h : ∀ c ∈ l, c.utf8Size = 1) :
    (String.mk l).utf8ByteSize = l.length := by
  show String.utf8ByteSize.go l = l.length
  induction l with
  | nil => rfl
  | cons c cs ih =>
    show String.utf8ByteSize.go cs + c.utf8Size = cs.length + 1
    rw [ih (fun d hd => h d (List.mem_cons_of_mem _ hd)), h c (List.mem_cons_self _ _)]

theorem letterBytes_chars :
    ∀ c ∈ letterBytes.data, c.isAlpha = true ∧ c.utf8Size = 1 ∧ c ≠ Char.ofNat 0 := by
  decide

theorem numeric_chars :
    ∀ c ∈ numeric.data, c.isDigit = true ∧ c.utf8Size = 1 ∧ c ≠ Char.ofNat 0 := by
  decide


theorem runLoop_of_neg (a : String) (K : ℕ) (g : LoopState) (hi : g.i < 0) :
    runLoop a K g = some g := by
  cases K with
  | zero => unfold runLoop; rw [if_neg (by omega)]
  | succ K => unfold runLoop; rw [if_neg (by omega)]

theorem generate_zero (a : String) (src : Source) (fuel : ℕ) :
    generate a src 0 fuel = .returned "" src.Int63.2 := by
  unfold generate
  rw [if_neg (by decide)]
  simp only []
  have h := runLoop_of_neg a fuel
    { b := List.replicate (0 : ℤ).toNat (Char.ofNat 0), i := 0 - 1, cache := src.Int63.1,
      remain := letterIdxMax, src := src.Int63.2 } (by show (0 - 1 : ℤ) < 0; decide)
  rw [h]
  rfl

theorem generate_neg (a : String) (src : Source) (n : ℤ) (hn : n < 0) (fuel : ℕ) :
    generate a src n fuel = .makesliceFault := by
  unfold generate
  rw [if_pos hn]

theorem chunkSeq_allOnes (k : ℕ) : chunkSeq (constSource (2 ^ 63 - 1)) k = 63 := by
  unfold chunkSeq constSource
  have h10 : letterIdxMax = 10 := rfl
  simp only [h10]
  have hk : k % 10 < 10 := Nat.mod_lt _ (by decide)
  generalize k % 10 = j at hk
  interval_cases j <;> decide

theorem count_allOnes (len : ℕ) (hlen : len ≤ 63) (K : ℕ) :
    Nat.count (fun k => chunkSeq (constSource (2 ^ 63 - 1)) k < len) K = 0 := by
  induction K with
  | zero => exact Nat.count_zero _
  | succ K ih =>
    rw [Nat.count_succ, ih, chunkSeq_allOnes, if_neg (by omega)]

/-! ## Properties of the generator -/

/-- C7: length invariant. For every `n >= 0` and every source, a call of `RandomStr(n)`
or `RandomNumeric(n)` that returns, returns a string of exactly `n` characters, which are
`n` bytes. -/
theorem C7_length (src : Source) (n : ℤ) (hn : 0 ≤ n) (fuel : ℕ) (s : String) (rest : Source) :
    (RandomStr src n fuel = .returned s rest →
        s.length = n.toNat ∧ s.utf8ByteSize = n.toNat) ∧
      (RandomNumeric src n fuel = .returned s rest →
        s.length = n.toNat ∧ s.utf8ByteSize = n.toNat) := by
  constructor
  · intro h
    obtain ⟨h1, h2⟩ := generate_returned letterBytes src n hn fuel s rest h
    refine ⟨h1, ?_⟩
    have := utf8ByteSize_of_ascii s.data (fun c hc => (letterBytes_chars c (h2 c hc)).2.1)
    rw [← h1]
    exact this
  · intro h
    obtain ⟨h1, h2⟩ := generate_returned numeric src n hn fuel s rest h
    refine ⟨h1, ?_⟩
    have := utf8ByteSize_of_ascii s.data (fun c hc => (numeric_chars c (h2 c hc)).2.1)
    rw [← h1]
    exact this

/-- Witness of C7: `RandomStr(12)` on the sample source returns within 20 passes, and the
string returned has 12 bytes. -/
theorem C7_length_witness :
    RandomStr sampleSource 12 20 = .returned "lLpGQEBLsNWv" { sampleSource with pos := 2 } ∧
      "lLpGQEBLsNWv".length = 12 ∧ "lLpGQEBLsNWv".utf8ByteSize = 12 :=
  ⟨rfl, (C7_length sampleSource 12 (by decide) 20 "lLpGQEBLsNWv"
    { sampleSource with pos := 2 }).1 rfl⟩

/-- C8: alphabet purity. For every `n >= 0` and every source, every character of the
string a call of `RandomStr(n)` returns is one of the 52 letters of `letterBytes`, and
every character of the string `RandomNumeric(n)` returns is one of the digits of
`numeric`; no position is left as the zero byte of the allocation, however many refills
of the chunk budget the call went through. -/
theorem C8_alphabet (src : Source) (n : ℤ) (hn : 0 ≤ n) (fuel : ℕ) (s : String)
    (rest : Source) :
    (RandomStr src n fuel = .returned s rest →
        ∀ c ∈ s.data, c ∈ letterBytes.data ∧ c.isAlpha = true ∧ c ≠ Char.ofNat 0) ∧
      (RandomNumeric src n fuel = .returned s rest →
        ∀ c ∈ s.data, c ∈ numeric.data ∧ c.isDigit = true ∧ c ≠ Char.ofNat 0) := by
  constructor
  · intro h c hc
    have hm := (generate_returned letterBytes src n hn fuel s rest h).2 c hc
    exact ⟨hm, (letterBytes_chars c hm).1, (letterBytes_chars c hm).2.2⟩
  · intro h c hc
    have hm := (generate_returned numeric src n hn fuel s rest h).2 c hc
    exact ⟨hm, (numeric_chars c hm).1, (numeric_chars c hm).2.2⟩

set_option maxRecDepth 1000000 in
/-- Witness of C8 at `n = 100`: on the sample source `RandomStr(100)` draws 14 values,
refilling the chunk budget 13 times, and returns letters only. -/
theorem C8_alphabet_witness :
    RandomStr sampleSource 100 200 = .returned
        "teSKMJrlMTYerQzTlhFDdXIoVHmtNQWtnJsZrvNLYgZCVucOoevbjcwstvmLJVUHCvyjDgXPJDUxkFbuQMBsXqXUlLpGQEBLsNWv"
        { sampleSource with pos := 14 } ∧
      ∀ c ∈ "teSKMJrlMTYerQzTlhFDdXIoVHmtNQWtnJsZrvNLYgZCVucOoevbjcwstvmLJVUHCvyjDgXPJDUxkFbuQMBsXqXUlLpGQEBLsNWv".data,
        c ∈ letterBytes.data ∧ c.isAlpha = true ∧ c ≠ Char.ofNat 0 :=
  ⟨rfl, (C8_alphabet sampleSource 100 (by decide) 200
    "teSKMJrlMTYerQzTlhFDdXIoVHmtNQWtnJsZrvNLYgZCVucOoevbjcwstvmLJVUHCvyjDgXPJDUxkFbuQMBsXqXUlLpGQEBLsNWv"
    { sampleSource with pos := 14 }).1 rfl⟩

/-- C9 fails for negative lengths: with `n = -1`, `make([]byte, n)` fails at run time in
both functions, whatever the fuel; no string is returned. -/
theorem C9_counterexample :
    (∀ fuel : ℕ, RandomStr sampleSource (-1) fuel = .makesliceFault) ∧
      (∀ fuel : ℕ, RandomNumeric sampleSource (-1) fuel = .makesliceFault) :=
  ⟨fun fuel => generate_neg letterBytes sampleSource (-1) (by decide) fuel,
    fun fuel => generate_neg numeric sampleSource (-1) (by decide) fuel⟩

/-- C9 (amended): for `n = 0`, `RandomStr(n)` and `RandomNumeric(n)` return the empty
string without failing, having drawn one value from the source; for every `n < 0` both
calls fail in `make([]byte, n)` and return nothing. -/
theorem C9_nonpositive (src : Source) (fuel : ℕ) :
    RandomStr src 0 fuel = .returned "" src.Int63.2 ∧
      RandomNumeric src 0 fuel = .returned "" src.Int63.2 ∧
      ∀ n : ℤ, n < 0 →
        RandomStr src n fuel = .makesliceFault ∧ RandomNumeric src n fuel = .makesliceFault :=
  ⟨generate_zero letterBytes src fuel, generate_zero numeric src fuel,
    fun n hn => ⟨generate_neg letterBytes src n hn fuel, generate_neg numeric src n hn fuel⟩⟩

/-- Witness of C9 (amended) at `n = -3`. -/
theorem C9_nonpositive_witness :
    RandomStr sampleSource (-3) 5 = .makesliceFault ∧
      RandomNumeric sampleSource (-3) 5 = .makesliceFault :=
  (C9_nonpositive sampleSource 5).2.2 (-3) (by decide)

/-- C10 fails on a source that hands out `2^63 - 1` forever: every chunk is 63, which
neither alphabet accepts, so the loop of `RandomStr(1)` and of `RandomNumeric(1)` is
still running after any number of passes. -/
theorem C10_counterexample :
    (¬ ∃ fuel s rest, RandomStr (constSource (2 ^ 63 - 1)) 1 fuel = .returned s rest) ∧
      (¬ ∃ fuel s rest, RandomNumeric (constSource (2 ^ 63 - 1)) 1 fuel = .returned s rest) ∧
      (∀ fuel, RandomStr (constSource (2 ^ 63 - 1)) 1 fuel = .running) := by
  have hS : ∀ fuel, ¬ ∃ s rest,
      generate letterBytes (constSource (2 ^ 63 - 1)) 1 fuel = .returned s rest := by
    intro fuel h
    have := (generate_returned_iff letterBytes _ 1 (by decide) fuel).mp h
    rw [count_allOnes _ (by decide)] at this
    exact absurd this (by decide)
  have hN : ∀ fuel, ¬ ∃ s rest,
      generate numeric (constSource (2 ^ 63 - 1)) 1 fuel = .returned s rest := by
    intro fuel h
    have := (generate_returned_iff numeric _ 1 (by decide) fuel).mp h
    rw [count_allOnes _ (by decide)] at this
    exact absurd this (by decide)
  refine ⟨fun ⟨fuel, h⟩ => hS fuel h, fun ⟨fuel, h⟩ => hN fuel h, ?_⟩
  intro fuel
  have h := hS fuel
  unfold RandomStr generate at *
  rw [if_neg (by decide)] at h ⊢
  simp only [] at h ⊢
  cases hrun : runLoop letterBytes fuel
    { b := List.replicate (1 : ℤ).toNat (Char.ofNat 0), i := 1 - 1,
      cache := (constSource (2 ^ 63 - 1)).Int63.1, remain := letterIdxMax,
      src := (constSource (2 ^ 63 - 1)).Int63.2 } with
  | none => rfl
  | some g =>
    rw [hrun] at h
    exact absurd ⟨_, _, rfl⟩ h

/-- C10 (amended): generation is bounded by the source. For every `n >= 0`, every source
and every `K`, the loop of `RandomStr(n)` ends within `K` passes exactly when at least `n`
of the first `K` chunks of the source are below 52, and the loop of `RandomNumeric(n)`
exactly when at least `n` of them are below 10; the call then returns. -/
theorem C10_termination (src : Source) (n : ℤ) (hn : 0 ≤ n) (K : ℕ) :
    ((∃ s rest, RandomStr src n K = .returned s rest) ↔
        n.toNat ≤ Nat.count (fun k => chunkSeq src k < 52) K) ∧
      ((∃ s rest, RandomNumeric src n K = .returned s rest) ↔
        n.toNat ≤ Nat.count (fun k => chunkSeq src k < 10) K) :=
  ⟨generate_returned_iff letterBytes src n hn K, generate_returned_iff numeric src n hn K⟩

/-- Witness of C10 (amended): the first 4 chunks of the sample source are all below 52,
and `RandomStr(3)` returns within 4 passes. -/
theorem C10_termination_witness :
    (∃ s rest, RandomStr sampleSource 3 4 = .returned s rest) ∧
      (3 : ℤ).toNat ≤ Nat.count (fun k => chunkSeq sampleSource k < 52) 4 :=
  ⟨⟨"NWv", { sampleSource with pos := 1 }, rfl⟩,
    ((C10_termination sampleSource 3 (by decide) 4).1).mp
      ⟨"NWv", { sampleSource with pos := 1 }, rfl⟩⟩


/-! ## Further properties of the obfuscator -/

theorem swap_low32 (x : ℤ) :
    (x % 2 ^ 16) * 2 ^ 16 + (x % 2 ^ 32) / 2 ^ 16
      = ((x % 2 ^ 32) % 2 ^ 16) * 2 ^ 16 + ((x % 2 ^ 32) % 2 ^ 32) / 2 ^ 16 := by
  have e1 : (x % 2 ^ 32) % 2 ^ 16 = x % 2 ^ 16 := by omega
  have e2 : (x % 2 ^ 32) % 2 ^ 32 = x % 2 ^ 32 := by omega
  rw [e1, e2]

/-- Applying `Encrypt` twice keeps the low 32 bits of any integer. -/
theorem ToInt_Encrypt_Encrypt_all (x : ℤ) :
    ToInt (.str (Encrypt (.str (Encrypt (.int x))))) = x % 2 ^ 32 := by
  rw [ToInt_Encrypt (.str (Encrypt (.int x))), ToInt_Encrypt (.int x)]
  show (((x % 2 ^ 16) * 2 ^ 16 + (x % 2 ^ 32) / 2 ^ 16) % 2 ^ 16) * 2 ^ 16
      + (((x % 2 ^ 16) * 2 ^ 16 + (x % 2 ^ 32) / 2 ^ 16) % 2 ^ 32) / 2 ^ 16 = x % 2 ^ 32
  rw [swap_low32 x]
  exact swap_swap (x % 2 ^ 32) (by omega) (by omega)

/-- The integer `Encrypt` denotes is zero exactly when the low 32 bits of the input are. -/
theorem ToInt_Encrypt_eq_zero_iff (x : ℤ) :
    ToInt (.str (Encrypt (.int x))) = 0 ↔ x % 2 ^ 32 = 0 := by
  constructor
  · intro h
    have h2 := ToInt_Encrypt_Encrypt_all x
    rw [ToInt_Encrypt (.str (Encrypt (.int x))), h] at h2
    have h3 : ((0 : ℤ) % 2 ^ 16) * 2 ^ 16 + ((0 : ℤ) % 2 ^ 32) / 2 ^ 16 = 0 := by decide
    rw [h3] at h2
    exact h2.symm
  · intro h
    rw [ToInt_Encrypt (.int x)]
    show (x % 2 ^ 16) * 2 ^ 16 + (x % 2 ^ 32) / 2 ^ 16 = 0
    have e1 : x % 2 ^ 16 = 0 := by omega
    rw [e1, h]
    decide

theorem Decrypt_error_iff (v : Value) :
    (Decrypt v).2 ≠ none ↔ ToInt (.str (Encrypt v)) = 0 := by
  unfold Decrypt
  simp only []
  by_cases h : ToInt (.str (Encrypt v)) = 0
  · simp [h]
  · simp [h]


/-- On the 32-bit range the integer `Encrypt` denotes is the half-word swap. -/
theorem ToInt_Encrypt_of_range (x : ℤ) (h0 : 0 ≤ x) (h1 : x < 2 ^ 32) :
    ToInt (.str (Encrypt (.int x))) = (x % 2 ^ 16) * 2 ^ 16 + x / 2 ^ 16 := by
  have hm : x % 2 ^ 32 = x := Int.emod_eq_of_lt h0 h1
  rw [ToInt_Encrypt]
  show (x % 2 ^ 16) * 2 ^ 16 + (x % 2 ^ 32) / 2 ^ 16 = _
  rw [hm]

/-- The string `Encrypt` returns is the decimal form of the integer it denotes. -/
theorem Encrypt_eq_ToString (n : Value) :
    Encrypt n = ToString (.int (ToInt (.str (Encrypt n)))) := by
  rw [ToInt_Encrypt, Encrypt_eq]

/-- C12 fails at `id = 65537 = 0x00010001`: both half-words are 1, so the swap leaves the
identifier unchanged and `Encrypt(id)` is the decimal of `id` itself. -/
theorem C12_counterexample :
    ((0 : ℤ) < 65537 ∧ (65537 : ℤ) < 2 ^ 32) ∧
      Encrypt (.int 65537) = "65537" ∧
      Encrypt (.int 65537) = ToString (.int 65537) ∧
      ToInt (.str (Encrypt (.int 65537))) = 65537 := by
  decide

/-- C12 (amended): fixed points of the obfuscator. For every identifier `id` with
`0 < id < 2^32`, `Encrypt(id)` has the value `id` exactly when the two 16-bit half-words of
`id` are equal (`id mod 2^16 = id div 2^16`); on every other identifier of the range the
obfuscated value differs from `id`. -/
theorem C12_fixed_points (id : ℤ) (h0 : 0 < id) (h1 : id < 2 ^ 32) :
    (ToInt (.str (Encrypt (.int id))) = id ↔ id % 2 ^ 16 = id / 2 ^ 16) ∧
      (Encrypt (.int id) = ToString (.int id) ↔ id % 2 ^ 16 = id / 2 ^ 16) ∧
      (id % 2 ^ 16 ≠ id / 2 ^ 16 → ToInt (.str (Encrypt (.int id))) ≠ id) := by
  have hv := ToInt_Encrypt_of_range id (le_of_lt h0) h1
  have key : ToInt (.str (Encrypt (.int id))) = id ↔ id % 2 ^ 16 = id / 2 ^ 16 := by
    rw [hv]
    omega
  refine ⟨key, ?_, fun hne h => hne (key.mp h)⟩
  rw [← key]
  constructor
  · intro h
    rw [Encrypt_eq_ToString] at h
    exact ToString_injective h
  · intro h
    rw [Encrypt_eq_ToString, h]

/-- Witness of C12 (amended): `id = 65538 = 0x00010002` has different half-words. -/
theorem C12_fixed_points_witness :
    (ToInt (.str (Encrypt (.int 65538))) = 65538 ↔ (65538 : ℤ) % 2 ^ 16 = 65538 / 2 ^ 16) ∧
      (Encrypt (.int 65538) = ToString (.int 65538) ↔ (65538 : ℤ) % 2 ^ 16 = 65538 / 2 ^ 16) ∧
      ((65538 : ℤ) % 2 ^ 16 ≠ 65538 / 2 ^ 16 → ToInt (.str (Encrypt (.int 65538))) ≠ 65538) :=
  C12_fixed_points 65538 (by decide) (by decide)

/-- C16: zero is the only unusable value of the 32-bit domain. For every integer `v` with
`0 <= v < 2^32`, `Decrypt(v)` returns a `DecryptionError` if and only if `v = 0`, and
`Encrypt(v)` is zero (as an integer, and as the string `"0"`) if and only if `v = 0`. -/
theorem C16_zero_only (v : ℤ) (h0 : 0 ≤ v) (h1 : v < 2 ^ 32) :
    ((Decrypt (.int v)).2 ≠ none ↔ v = 0) ∧
      (ToInt (.str (Encrypt (.int v))) = 0 ↔ v = 0) ∧
      (Encrypt (.int v) = "0" ↔ v = 0) := by
  have hm : v % 2 ^ 32 = v := Int.emod_eq_of_lt h0 h1
  have key : ToInt (.str (Encrypt (.int v))) = 0 ↔ v = 0 := by
    rw [ToInt_Encrypt_eq_zero_iff, hm]
  refine ⟨?_, key, ?_⟩
  · rw [Decrypt_error_iff, key]
  · rw [← key]
    constructor
    · intro h
      rw [h]
      decide
    · intro h
      rw [Encrypt_eq_ToString, h]
      decide

/-- Witness of C16 at `v = 7`. -/
theorem C16_zero_only_witness :
    ((Decrypt (.int 7)).2 ≠ none ↔ (7 : ℤ) = 0) ∧
      (ToInt (.str (Encrypt (.int 7))) = 0 ↔ (7 : ℤ) = 0) ∧
      (Encrypt (.int 7) = "0" ↔ (7 : ℤ) = 0) :=
  C16_zero_only 7 (by decide) (by decide)

/-- C17: outside the 32-bit domain `Encrypt` keeps only the low 32 bits. For every integer
`x` (in particular every 64-bit signed one), `0 <= Encrypt(x) < 2^32` and
`Encrypt(Encrypt(x)) = x mod 2^32`, the unsigned value of the low 32 bits of `x`; hence for
every negative `x` and every `x >= 2^32` the round trip does not return `x`, and `Decrypt`
fails on `x` exactly when `x` is a multiple of `2^32`. -/
theorem C17_low_32_bits (x : ℤ) :
    (0 ≤ ToInt (.str (Encrypt (.int x))) ∧ ToInt (.str (Encrypt (.int x))) < 2 ^ 32) ∧
      ToInt (.str (Encrypt (.str (Encrypt (.int x))))) = x % 2 ^ 32 ∧
      (x < 0 ∨ 2 ^ 32 ≤ x → ToInt (.str (Encrypt (.str (Encrypt (.int x))))) ≠ x) ∧
      ((Decrypt (.int x)).2 ≠ none ↔ x % 2 ^ 32 = 0) := by
  refine ⟨?_, ToInt_Encrypt_Encrypt_all x, ?_, ?_⟩
  · rw [ToInt_Encrypt]
    exact swap_range _
  · intro h
    rw [ToInt_Encrypt_Encrypt_all]
    omega
  · rw [Decrypt_error_iff, ToInt_Encrypt_eq_zero_iff]

/-! ## Slice membership -/

/-- C13: `Contains` is list membership. For every slice of strings `s` and every string
`e`, `Contains(s, e)` returns true if and only if some element of `s` equals `e`; it is
false for the empty (or nil) slice. -/
theorem C13_contains_membership :
    (∀ (s : List String) (e : String), Contains s e = true ↔ ∃ a, a ∈ s ∧ a = e) ∧
      (∀ e : String, Contains [] e = false) := by
  refine ⟨?_, fun e => rfl⟩
  intro s e
  induction s with
  | nil => simp [Contains]
  | cons a rest ih =>
    unfold Contains
    by_cases h : a = e
    · simp [h]
    · rw [if_neg h, ih]
      constructor
      · rintro ⟨b, hb, rfl⟩
        exact ⟨b, List.mem_cons_of_mem _ hb, rfl⟩
      · rintro ⟨b, hb, rfl⟩
        rcases List.mem_cons.mp hb with hba | hb1
        · exact absurd hba.symm h
        · exact ⟨b, hb1, rfl⟩


/-! ## Lemmas on float64 -/

theorem round_signbit (neg : Bool) (n d : ℕ) :
    F64.signbit (F64.round neg n d) = neg ∧ F64.round neg n d ≠ .nan := by
  unfold F64.round F64.zero
  simp only []
  split_ifs <;> simp [F64.signbit]

theorem normalize_signbit (neg : Bool) (t : ℕ) (e : ℤ) :
    F64.signbit (F64.normalize neg t e) = neg ∧ F64.normalize neg t e ≠ .nan := by
  unfold F64.normalize F64.zero
  simp only []
  split_ifs <;> simp [F64.signbit]

theorem mul_signbit (x y : F64) :
    F64.mul x y = .nan ∨ F64.signbit (F64.mul x y) = xor (F64.signbit x) (F64.signbit y) := by
  cases x with
  | nan => left; cases y <;> rfl
  | inf s =>
    cases y with
    | nan => left; rfl
    | inf t => right; rfl
    | finite t m e =>
      by_cases hm : m = 0
      · left; simp [F64.mul, hm]
      · right; simp [F64.mul, hm, F64.signbit]
  | finite s m e =>
    cases y with
    | nan => left; rfl
    | inf t =>
      by_cases hm : m = 0
      · left; simp [F64.mul, hm]
      · right; simp [F64.mul, hm, F64.signbit]
    | finite t m' e' =>
      right
      simp only [F64.mul, F64.signbit]
      exact (round_signbit _ _ _).1

theorem div_signbit (x y : F64) :
    F64.div x y = .nan ∨ F64.signbit (F64.div x y) = xor (F64.signbit x) (F64.signbit y) := by
  cases x with
  | nan => left; cases y <;> rfl
  | inf s =>
    cases y with
    | nan => left; rfl
    | inf t => left; rfl
    | finite t m e => right; rfl
  | finite s m e =>
    cases y with
    | nan => left; rfl
    | inf t => right; rfl
    | finite t m' e' =>
      simp only [F64.div, F64.signbit]
      by_cases hm' : m' = 0
      · by_cases hm : m = 0
        · left; simp [hm, hm']
        · right; simp [hm, hm', F64.signbit]
      · right
        rw [if_neg hm']
        exact (round_signbit _ _ _).1

theorem signbit_nan_or {x : F64} {s : Bool} (h : x = .nan ∨ F64.signbit x = s) (hs : s = false) :
    F64.signbit x = false := by
  rcases h with h | h
  · rw [h]; rfl
  · rw [h, hs]

theorem mul_signbit_false (x y : F64) (hx : F64.signbit x = false) (hy : F64.signbit y = false) :
    F64.signbit (F64.mul x y) = false :=
  signbit_nan_or (mul_signbit x y) (by rw [hx, hy]; rfl)

theorem div_signbit_false (x y : F64) (hx : F64.signbit x = false) (hy : F64.signbit y = false) :
    F64.signbit (F64.div x y) = false :=
  signbit_nan_or (div_signbit x y) (by rw [hx, hy]; rfl)

theorem key_nonneg (b : ℤ) (m : ℕ) (e : ℤ) : 0 ≤ F64.key b false m e := by
  unfold F64.key
  simp only [Bool.false_eq_true, if_false, one_mul]
  exact Int.natCast_nonneg _

theorem key_nonpos (b : ℤ) (m : ℕ) (e : ℤ) : F64.key b true m e ≤ 0 := by
  unfold F64.key
  simp only [if_true]
  have : (0 : ℤ) ≤ ((m * 2 ^ (e - b).toNat : ℕ) : ℤ) := Int.natCast_nonneg _
  omega

theorem key_zero (b : ℤ) (s : Bool) (e : ℤ) : F64.key b s 0 e = 0 := by
  unfold F64.key
  simp

theorem key_pos (b : ℤ) (m : ℕ) (e : ℤ) (hm : 0 < m) : 0 < F64.key b false m e := by
  unfold F64.key
  simp only [Bool.false_eq_true, if_false, one_mul]
  exact Int.natCast_pos.mpr (Nat.mul_pos hm (pow_pos (by decide) _))

theorem add_signbit_false (x y : F64) (hx : F64.signbit x = false) (hy : F64.signbit y = false) :
    F64.signbit (F64.add x y) = false := by
  cases x with
  | nan => cases y <;> rfl
  | inf s =>
    simp only [F64.signbit] at hx
    subst hx
    cases y with
    | nan => rfl
    | inf t =>
      simp only [F64.signbit] at hy
      subst hy
      rfl
    | finite t m e => rfl
  | finite s m e =>
    simp only [F64.signbit] at hx
    subst hx
    cases y with
    | nan => rfl
    | inf t => exact hy
    | finite t m' e' =>
      simp only [F64.signbit] at hy
      subst hy
      simp only [F64.add]
      have h1 := key_nonneg (F64.unit m e m' e') m e
      have h2 := key_nonneg (F64.unit m e m' e') m' e'
      split_ifs with hu
      · rfl
      · rw [(round_signbit _ _ _).1]
        simp only [decide_eq_false_iff_not, not_lt]
        omega

theorem Ldexp_signbit (x : F64) (k : ℤ) : F64.signbit (Ldexp x k) = F64.signbit x := by
  cases x with
  | nan => rfl
  | inf s => rfl
  | finite s m e =>
    simp only [Ldexp, F64.signbit]
    exact (round_signbit _ _ _).1

theorem ofInt_signbit (i : ℤ) (hi : 0 ≤ i) : F64.signbit (F64.ofInt i) = false := by
  unfold F64.ofInt
  rw [(round_signbit _ _ _).1]
  simp only [decide_eq_false_iff_not, not_lt]
  exact hi

/-- The loop of `math.Pow` is over once the bits of the exponent are used up: with
`i < 2^fuel`, more fuel changes nothing. -/
theorem powLoop_enough (fuel : ℕ) :
    ∀ p : PowState, p.i < 2 ^ fuel → ∀ k : ℕ, powLoop (fuel + k) p = powLoop fuel p := by
  induction fuel with
  | zero =>
    intro p hp k
    have h0 : p.i = 0 := by
      simp only [pow_zero] at hp
      omega
    cases k with
    | zero => rfl
    | succ k =>
      show powLoop (0 + k + 1) p = powLoop 0 p
      unfold powLoop
      rw [if_pos h0]
  | succ fuel ih =>
    intro p hp k
    have e1 : fuel + 1 + k = (fuel + k) + 1 := by omega
    rw [e1]
    unfold powLoop
    by_cases h1 : p.i = 0
    · rw [if_pos h1, if_pos h1]
    · rw [if_neg h1, if_neg h1]
      by_cases h2 : p.xe < -4096 ∨ 4096 < p.xe
      · rw [if_pos h2, if_pos h2]
      · rw [if_neg h2, if_neg h2]
        apply ih
        show p.i / 2 < 2 ^ fuel
        rw [pow_succ] at hp
        omega

theorem powLoop_signbit (fuel : ℕ) :
    ∀ p : PowState, F64.signbit p.a1 = false → F64.signbit p.x1 = false →
      F64.signbit (powLoop fuel p).a1 = false := by
  induction fuel with
  | zero => intro p h _; exact h
  | succ fuel ih =>
    intro p ha hx
    unfold powLoop
    by_cases h1 : p.i = 0
    · rw [if_pos h1]
      exact ha
    · rw [if_neg h1]
      by_cases h2 : p.xe < -4096 ∨ 4096 < p.xe
      · rw [if_pos h2]
        exact ha
      · rw [if_neg h2]
        have hxx := mul_signbit_false _ _ hx hx
        apply ih
        · show F64.signbit (if p.i % 2 = 1 then F64.mul p.a1 p.x1 else p.a1) = false
          split_ifs
          · exact mul_signbit_false _ _ ha hx
          · exact ha
        · show F64.signbit (if F64.lt (F64.mul p.x1 p.x1) (F64.round false 1 2) = true
            then F64.add (F64.mul p.x1 p.x1) (F64.mul p.x1 p.x1) else F64.mul p.x1 p.x1) = false
          split_ifs
          · exact add_signbit_false _ _ hxx hxx
          · exact hxx

/-- The power of ten `math.Pow` hands back never has its sign bit set. -/
theorem Pow10_signbit (precision : ℤ) : F64.signbit (Pow10 precision) = false := by
  have h1 : F64.signbit (F64.ofInt 1) = false := ofInt_signbit 1 (by decide)
  unfold Pow10
  simp only []
  split_ifs with h0 h1'
  · exact h1
  · exact ofInt_signbit 10 (by decide)
  · cases F64.ofInt precision with
    | nan => rfl
    | inf s => cases s <;> rfl
    | finite s m e =>
      simp only []
      split_ifs
      · rfl
      · rfl
      · rw [Ldexp_signbit]
        exact div_signbit_false _ _ h1 (powLoop_signbit 64 _ h1 (round_signbit false 5 8).1)
      · rw [Ldexp_signbit]
        exact powLoop_signbit 64 _ h1 (round_signbit false 5 8).1

theorem lt_zero_left (x : F64) (h : F64.lt (F64.zero false) x = true) :
    x ≠ .nan ∧ F64.signbit x = false ∧ ∀ s m e, x = .finite s m e → 0 < m := by
  cases x with
  | nan => exact absurd h (by simp [F64.lt, F64.zero])
  | inf s =>
    simp only [F64.lt, F64.zero, Bool.not_eq_true'] at h
    exact ⟨by simp, h, by simp⟩
  | finite s m e =>
    simp only [F64.lt, F64.zero, decide_eq_true_eq, key_zero] at h
    refine ⟨by simp, ?_, ?_⟩
    · cases s with
      | false => rfl
      | true =>
        have := key_nonpos (F64.unit 0 (-1074) m e) m e
        omega
    · intro s' m' e' hx
      simp only [F64.finite.injEq] at hx
      obtain ⟨_, hm, _⟩ := hx
      subst hm
      rcases Nat.eq_zero_or_pos m with h0 | h0
      · rw [h0, key_zero] at h
        omega
      · exact h0

theorem lt_zero_right (x : F64) (h : F64.lt x (F64.zero false) = true) :
    x ≠ .nan ∧ F64.signbit x = true := by
  cases x with
  | nan => exact absurd h (by simp [F64.lt, F64.zero])
  | inf s =>
    simp only [F64.lt, F64.zero] at h
    exact ⟨by simp, h⟩
  | finite s m e =>
    simp only [F64.lt, F64.zero, decide_eq_true_eq, key_zero] at h
    refine ⟨by simp, ?_⟩
    cases s with
    | true => rfl
    | false =>
      have := key_nonneg (F64.unit m e 0 (-1074)) m e
      omega

theorem lt_zero_of_signbit (x : F64) (h : F64.signbit x = true) :
    F64.lt (F64.zero false) x = false := by
  cases x with
  | nan => rfl
  | inf s =>
    simp only [F64.signbit] at h
    subst h
    rfl
  | finite s m e =>
    simp only [F64.signbit] at h
    subst h
    simp only [F64.lt, F64.zero, key_zero, decide_eq_false_iff_not, not_lt]
    exact key_nonpos _ _ _

theorem Modf_frac_signbit (x : F64) (h : x = .nan ∨ F64.signbit x = true) :
    (Modf x).2 = .nan ∨ F64.signbit (Modf x).2 = true := by
  cases x with
  | nan => left; rfl
  | inf s => left; rfl
  | finite s m e =>
    right
    rcases h with h | h
    · exact absurd h (by simp)
    · simp only [F64.signbit] at h
      subst h
      simp only [Modf]
      split_ifs
      · rfl
      · rfl
      · exact (normalize_signbit _ _ _).1

/-- A positive threshold is never reached by a fractional part with the sign bit set. -/
theorem le_false_of_signbit (t d : F64) (ht : F64.lt (F64.zero false) t = true)
    (hd : d = .nan ∨ F64.signbit d = true) : F64.le t d = false := by
  obtain ⟨ht1, ht2, ht3⟩ := lt_zero_left t ht
  cases t with
  | nan => exact absurd rfl ht1
  | inf s =>
    simp only [F64.signbit] at ht2
    subst ht2
    cases d with
    | nan => rfl
    | inf s' =>
      rcases hd with hd | hd
      · exact absurd hd (by simp)
      · simp only [F64.signbit] at hd
        subst hd
        rfl
    | finite s' m' e' => rfl
  | finite s m e =>
    simp only [F64.signbit] at ht2
    subst ht2
    have hm := ht3 false m e rfl
    cases d with
    | nan => rfl
    | inf s' =>
      rcases hd with hd | hd
      · exact absurd hd (by simp)
      · simp only [F64.signbit] at hd
        subst hd
        rfl
    | finite s' m' e' =>
      rcases hd with hd | hd
      · exact absurd hd (by simp)
      · simp only [F64.signbit] at hd
        subst hd
        simp only [F64.le, decide_eq_false_iff_not, not_le]
        exact lt_of_le_of_lt (key_nonpos _ _ _) (key_pos _ _ _ hm)

/-- On a negative number and a positive threshold `Rounder` always takes the ceiling, that
is, it truncates toward zero: the branch that would round away from zero is dead. -/
theorem Rounder_of_neg (num intermed : F64) (precision : ℤ)
    (hn : F64.lt num (F64.zero false) = true) (hi : F64.lt (F64.zero false) intermed = true) :
    Rounder num intermed precision
      = F64.div (Ceil (F64.mul (Pow10 precision) num)) (Pow10 precision) := by
  obtain ⟨_, hs⟩ := lt_zero_right num hn
  have hdigit : F64.mul (Pow10 precision) num = .nan ∨
      F64.signbit (F64.mul (Pow10 precision) num) = true := by
    rcases mul_signbit (Pow10 precision) num with h | h
    · exact Or.inl h
    · right
      rw [h, Pow10_signbit, hs]
      rfl
  have hle := le_false_of_signbit intermed _ hi (Modf_frac_signbit _ hdigit)
  unfold Rounder
  simp only []
  rw [lt_zero_of_signbit num hs, hle]
  rfl

/-- On a positive number `Rounder` compares the fractional part of the scaled number with
the threshold: ceiling when it reaches the threshold, floor otherwise. -/
theorem Rounder_of_pos (num intermed : F64) (precision : ℤ)
    (hn : F64.lt (F64.zero false) num = true) :
    Rounder num intermed precision
      = F64.div
          (if F64.le intermed (Modf (F64.mul (Pow10 precision) num)).2 = true
            then Ceil (F64.mul (Pow10 precision) num)
            else Floor (F64.mul (Pow10 precision) num))
          (Pow10 precision) := by
  unfold Rounder
  simp only []
  rw [hn]
  rfl


/-! ## Lemmas on the value of a float64 -/

theorem two_zpow_pos (e : ℤ) : (0 : ℚ) < (2 : ℚ) ^ e := zpow_pos (by norm_num) e

theorem toRat_zero (s : Bool) : F64.toRat (F64.zero s) = 0 := by
  simp [F64.toRat, F64.zero]

theorem toRat_neg (x : F64) : F64.toRat (F64.neg x) = -F64.toRat x := by
  cases x with
  | nan => simp [F64.toRat, F64.neg]
  | inf s => simp [F64.toRat, F64.neg]
  | finite s m e => cases s <;> simp [F64.toRat, F64.neg]

/-- Bringing `t * 2^e` to the form of the type does not change its value. -/
theorem toRat_normalize (s : Bool) (t : ℕ) (e : ℤ) :
    F64.toRat (F64.normalize s t e) = (if s then -1 else 1) * (t : ℚ) * (2 : ℚ) ^ e := by
  simp only [F64.normalize]
  by_cases ht : t = 0
  · rw [if_pos ht, toRat_zero, ht]
    simp
  · rw [if_neg ht]
    generalize min (53 - bitLen t) (e + 1074).toNat = k
    simp only [F64.toRat]
    push_cast
    rw [zpow_sub₀ (by norm_num : (2 : ℚ) ≠ 0), zpow_natCast]
    have hk : (2 : ℚ) ^ k ≠ 0 := pow_ne_zero k (by norm_num)
    cases s <;> field_simp <;> ring

/-- A finite value with a negative exponent is a quotient by a power of two. -/
theorem toRat_of_neg_exp (s : Bool) (m : ℕ) (e : ℤ) (he : e < 0) :
    F64.toRat (.finite s m e)
      = (if s then -1 else 1) * ((m : ℚ) / ((2 ^ (-e).toNat : ℕ) : ℚ)) := by
  simp only [F64.toRat]
  have h : (2 : ℚ) ^ e = (((2 ^ (-e).toNat : ℕ) : ℚ))⁻¹ := by
    have e1 : e = -(((-e).toNat : ℤ)) := by omega
    conv_lhs => rw [e1]
    rw [zpow_neg, zpow_natCast]
    push_cast
    rfl
  rw [h]
  ring

/-- A finite value with a non-negative exponent is a whole number. -/
theorem toRat_of_nonneg_exp (s : Bool) (m : ℕ) (e : ℤ) (he : 0 ≤ e) :
    F64.toRat (.finite s m e)
      = (((if s then -1 else 1) * ((m * 2 ^ e.toNat : ℕ) : ℤ) : ℤ) : ℚ) := by
  simp only [F64.toRat]
  have h : (2 : ℚ) ^ e = ((2 ^ e.toNat : ℕ) : ℚ) := by
    have e1 : e = ((e.toNat : ℤ)) := by omega
    conv_lhs => rw [e1]
    rw [zpow_natCast]
    push_cast
    rfl
  rw [h]
  cases s <;> push_cast <;> ring

/-- Floor of a quotient of naturals. -/
theorem floor_nat_div (m p : ℕ) (hp : 0 < p) : ⌊(m : ℚ) / (p : ℚ)⌋ = ((m / p : ℕ) : ℤ) := by
  have hp' : (0 : ℚ) < (p : ℚ) := by exact_mod_cast hp
  have hm : (m : ℚ) = (p : ℚ) * ((m / p : ℕ) : ℚ) + ((m % p : ℕ) : ℚ) := by
    exact_mod_cast (Nat.div_add_mod m p).symm
  have hr : ((m % p : ℕ) : ℚ) < (p : ℚ) := by exact_mod_cast Nat.mod_lt m hp
  have hr0 : (0 : ℚ) ≤ ((m % p : ℕ) : ℚ) := Nat.cast_nonneg _
  rw [Int.floor_eq_iff, Int.cast_natCast]
  constructor
  · rw [le_div_iff₀ hp']
    linarith
  · rw [div_lt_iff₀ hp']
    linarith

/-- Ceiling of a quotient of naturals. -/
theorem ceil_nat_div (m p : ℕ) (hp : 0 < p) :
    ⌈(m : ℚ) / (p : ℚ)⌉ = ((m / p + (if m % p = 0 then 0 else 1) : ℕ) : ℤ) := by
  have hp' : (0 : ℚ) < (p : ℚ) := by exact_mod_cast hp
  have hm : (m : ℚ) = (p : ℚ) * ((m / p : ℕ) : ℚ) + ((m % p : ℕ) : ℚ) := by
    exact_mod_cast (Nat.div_add_mod m p).symm
  have hr : ((m % p : ℕ) : ℚ) < (p : ℚ) := by exact_mod_cast Nat.mod_lt m hp
  have hr0 : (0 : ℚ) ≤ ((m % p : ℕ) : ℚ) := Nat.cast_nonneg _
  rw [Int.ceil_eq_iff, Int.cast_natCast]
  by_cases h0 : m % p = 0
  · rw [if_pos h0, Nat.add_zero]
    rw [h0, Nat.cast_zero] at hm
    constructor
    · rw [lt_div_iff₀ hp']
      linarith
    · rw [div_le_iff₀ hp']
      linarith
  · rw [if_neg h0]
    have hr1 : (0 : ℚ) < ((m % p : ℕ) : ℚ) := by exact_mod_cast Nat.pos_of_ne_zero h0
    rw [Nat.cast_add, Nat.cast_one]
    constructor
    · rw [lt_div_iff₀ hp']
      linarith
    · rw [div_le_iff₀ hp']
      linarith

/-- Fractional part of a quotient of naturals. -/
theorem fract_nat_div (m p : ℕ) (hp : 0 < p) :
    Int.fract ((m : ℚ) / (p : ℚ)) = ((m % p : ℕ) : ℚ) / (p : ℚ) := by
  have hp' : (0 : ℚ) < (p : ℚ) := by exact_mod_cast hp
  have hm : (m : ℚ) = (p : ℚ) * ((m / p : ℕ) : ℚ) + ((m % p : ℕ) : ℚ) := by
    exact_mod_cast (Nat.div_add_mod m p).symm
  unfold Int.fract
  rw [floor_nat_div m p hp, Int.cast_natCast]
  field_simp
  linarith

theorem two_pow_pos_nat (k : ℕ) : 0 < 2 ^ k := pow_pos (by decide) k

/-- `math.Floor` is the floor of the value. -/
theorem toRat_Floor (s : Bool) (m : ℕ) (e : ℤ) :
    F64.toRat (Floor (.finite s m e)) = ((⌊F64.toRat (.finite s m e)⌋ : ℤ) : ℚ) := by
  simp only [Floor]
  by_cases h : m = 0 ∨ 0 ≤ e
  · rw [if_pos h]
    rcases h with h | h
    · subst h
      simp [F64.toRat]
    · rw [toRat_of_nonneg_exp s m e h, Int.floor_intCast]
  · rw [if_neg h]
    have he : e < 0 := by omega
    rw [toRat_of_neg_exp s m e he]
    cases s with
    | false =>
      simp only [Bool.false_eq_true, if_false, one_mul]
      rw [toRat_normalize, floor_nat_div m _ (two_pow_pos_nat _), Int.cast_natCast]
      simp only [Bool.false_eq_true, if_false, one_mul, zpow_zero, mul_one]
    | true =>
      simp only [if_true]
      rw [toRat_normalize, neg_one_mul, Int.floor_neg, ceil_nat_div m _ (two_pow_pos_nat _),
        Int.cast_neg, Int.cast_natCast]
      simp only [if_true, neg_one_mul, zpow_zero, mul_one]

/-- `math.Ceil` is the ceiling of the value. -/
theorem toRat_Ceil (s : Bool) (m : ℕ) (e : ℤ) :
    F64.toRat (Ceil (.finite s m e)) = ((⌈F64.toRat (.finite s m e)⌉ : ℤ) : ℚ) := by
  unfold Ceil
  rw [toRat_neg]
  show -F64.toRat (Floor (.finite (!s) m e)) = _
  rw [toRat_Floor]
  have h : F64.toRat (.finite (!s) m e) = -F64.toRat (.finite s m e) :=
    toRat_neg (.finite s m e)
  rw [h, Int.floor_neg]
  push_cast
  ring

/-- The fractional part `math.Modf` hands back for a finite number without sign bit is
the fractional part of its value. -/
theorem toRat_Modf_frac (m : ℕ) (e : ℤ) :
    F64.toRat (Modf (.finite false m e)).2 = Int.fract (F64.toRat (.finite false m e)) := by
  simp only [Modf]
  by_cases hm : m = 0
  · rw [if_pos hm]
    subst hm
    simp [F64.toRat]
  · rw [if_neg hm]
    by_cases he : 0 ≤ e
    · rw [if_pos he, toRat_zero, toRat_of_nonneg_exp false m e he, Int.fract_intCast]
    · rw [if_neg he]
      have he' : e < 0 := by omega
      have h2 := toRat_of_neg_exp false (m % 2 ^ (-e).toNat) e he'
      simp only [F64.toRat, Bool.false_eq_true, if_false, one_mul] at h2
      rw [toRat_normalize, toRat_of_neg_exp false m e he']
      simp only [Bool.false_eq_true, if_false, one_mul]
      rw [fract_nat_div m _ (two_pow_pos_nat _), h2]

/-- The fractional part of a finite number is finite, with the same sign bit. -/
theorem Modf_frac_finite (s : Bool) (m : ℕ) (e : ℤ) :
    ∃ m' e', (Modf (.finite s m e)).2 = .finite s m' e' := by
  simp only [Modf]
  split_ifs
  · exact ⟨_, _, rfl⟩
  · exact ⟨_, _, rfl⟩
  · simp only [F64.normalize, F64.zero]
    split_ifs
    · exact ⟨_, _, rfl⟩
    · exact ⟨_, _, rfl⟩

theorem unit_le (m : ℕ) (e : ℤ) (m' : ℕ) (e' : ℤ) :
    (m = 0 ∨ F64.unit m e m' e' ≤ e) ∧ (m' = 0 ∨ F64.unit m e m' e' ≤ e') := by
  unfold F64.unit
  split_ifs with h1 h2
  · exact ⟨Or.inl h1, Or.inr (le_refl _)⟩
  · exact ⟨Or.inr (le_refl _), Or.inl h2⟩
  · exact ⟨Or.inr (min_le_left _ _), Or.inr (min_le_right _ _)⟩

/-- Counted in units of `2^b`, a finite value is its key. -/
theorem key_toRat (b : ℤ) (s : Bool) (m : ℕ) (e : ℤ) (h : m = 0 ∨ b ≤ e) :
    ((F64.key b s m e : ℤ) : ℚ) * (2 : ℚ) ^ b = F64.toRat (.finite s m e) := by
  unfold F64.key
  simp only [F64.toRat]
  rcases h with h | h
  · subst h
    simp
  · have e1 : e = (((e - b).toNat : ℤ)) + b := by omega
    conv_rhs => rw [e1]
    rw [zpow_add₀ (by norm_num : (2 : ℚ) ≠ 0), zpow_natCast]
    cases s <;> push_cast <;> ring

/-- Go `<=` on finite numbers is the order of their values. -/
theorem le_iff_toRat (s : Bool) (m : ℕ) (e : ℤ) (t : Bool) (m' : ℕ) (e' : ℤ) :
    F64.le (.finite s m e) (.finite t m' e') = true
      ↔ F64.toRat (.finite s m e) ≤ F64.toRat (.finite t m' e') := by
  obtain ⟨h1, h2⟩ := unit_le m e m' e'
  rw [← key_toRat (F64.unit m e m' e') s m e h1, ← key_toRat (F64.unit m e m' e') t m' e' h2]
  simp only [F64.le, decide_eq_true_eq]
  rw [mul_le_mul_right (two_zpow_pos _)]
  exact Int.cast_le.symm

/-- Go `<` on finite numbers is the strict order of their values. -/
theorem lt_iff_toRat (s : Bool) (m : ℕ) (e : ℤ) (t : Bool) (m' : ℕ) (e' : ℤ) :
    F64.lt (.finite s m e) (.finite t m' e') = true
      ↔ F64.toRat (.finite s m e) < F64.toRat (.finite t m' e') := by
  obtain ⟨h1, h2⟩ := unit_le m e m' e'
  rw [← key_toRat (F64.unit m e m' e') s m e h1, ← key_toRat (F64.unit m e m' e') t m' e' h2]
  simp only [F64.lt, decide_eq_true_eq]
  rw [mul_lt_mul_right (two_zpow_pos _)]
  exact Int.cast_lt.symm


/-! ## Lemmas on rounding to nearest -/

theorem bitLenAux_spec (fuel : ℕ) :
    ∀ n acc : ℕ, n ≤ fuel → 0 < n →
      ∃ k : ℕ, bitLenAux fuel n acc = acc + (k + 1) ∧ 2 ^ k ≤ n ∧ n < 2 ^ (k + 1) := by
  induction fuel with
  | zero => intro n acc h1 h2; omega
  | succ fuel ih =>
    intro n acc h1 h2
    unfold bitLenAux
    rw [if_neg (by omega)]
    by_cases h : n / 2 = 0
    · refine ⟨0, ?_, by omega, by omega⟩
      rw [h]
      cases fuel with
      | zero => rfl
      | succ fuel => unfold bitLenAux; rw [if_pos rfl]
    · obtain ⟨k, hk1, hk2, hk3⟩ := ih (n / 2) (acc + 1) (by omega) (by omega)
      refine ⟨k + 1, by rw [hk1]; omega, ?_, ?_⟩
      · rw [pow_succ]; omega
      · rw [pow_succ]; omega

/-- The number of binary digits of a positive `n` is `k + 1` with `2^k <= n < 2^(k+1)`. -/
theorem bitLen_spec (n : ℕ) (hn : 0 < n) :
    ∃ k : ℕ, bitLen n = k + 1 ∧ 2 ^ k ≤ n ∧ n < 2 ^ (k + 1) := by
  obtain ⟨k, h1, h2, h3⟩ := bitLenAux_spec n n 0 (le_refl n) hn
  exact ⟨k, by unfold bitLen; rw [h1]; omega, h2, h3⟩

theorem scaleDown_pos (n d : ℕ) (e : ℤ) (hd : 0 < d) : 0 < (scaleDown n d e).2 := by
  unfold scaleDown
  split_ifs
  · exact Nat.mul_pos hd (pow_pos (by decide) _)
  · exact hd

/-- The fraction `scaleDown` hands back is `n / d` divided by `2^e`. -/
theorem scaleDown_val (n d : ℕ) (e : ℤ) :
    ((scaleDown n d e).1 : ℚ) / ((scaleDown n d e).2 : ℚ) = (n : ℚ) / (d : ℚ) / (2 : ℚ) ^ e := by
  unfold scaleDown
  split_ifs with h
  · have e1 : e = ((e.toNat : ℤ)) := by omega
    simp only []
    conv_rhs => rw [e1]
    rw [zpow_natCast]
    push_cast
    rw [div_div]
  · have e1 : e = -(((-e).toNat : ℤ)) := by omega
    simp only []
    conv_rhs => rw [e1]
    rw [zpow_neg, zpow_natCast]
    push_cast
    field_simp

/-- The integer `roundHalfEven` hands back is nearest to `n / d`, and even on a tie. -/
theorem roundHalfEven_spec (n d : ℕ) (hd : 0 < d) :
    |((roundHalfEven n d : ℕ) : ℚ) - (n : ℚ) / (d : ℚ)| ≤ 1 / 2 ∧
      (|((roundHalfEven n d : ℕ) : ℚ) - (n : ℚ) / (d : ℚ)| = 1 / 2 →
        roundHalfEven n d % 2 = 0) ∧
      (∀ a : ℕ, (a : ℚ) ≤ (n : ℚ) / (d : ℚ) → a ≤ roundHalfEven n d) ∧
      (∀ b : ℕ, (n : ℚ) / (d : ℚ) ≤ (b : ℚ) → roundHalfEven n d ≤ b) := by
  have hd' : (0 : ℚ) < (d : ℚ) := by exact_mod_cast hd
  have hm : (n : ℚ) = (d : ℚ) * ((n / d : ℕ) : ℚ) + ((n % d : ℕ) : ℚ) := by
    exact_mod_cast (Nat.div_add_mod n d).symm
  have hr : ((n % d : ℕ) : ℚ) < (d : ℚ) := by exact_mod_cast Nat.mod_lt n hd
  have hr0 : (0 : ℚ) ≤ ((n % d : ℕ) : ℚ) := Nat.cast_nonneg _
  have hx : (n : ℚ) / (d : ℚ) = ((n / d : ℕ) : ℚ) + ((n % d : ℕ) : ℚ) / (d : ℚ) := by
    field_simp
    linarith
  have hf0 : (0 : ℚ) ≤ ((n % d : ℕ) : ℚ) / (d : ℚ) := div_nonneg hr0 (le_of_lt hd')
  have hf1 : ((n % d : ℕ) : ℚ) / (d : ℚ) < 1 := by
    rw [div_lt_one hd']
    exact hr
  have hlow : ∀ a : ℕ, (a : ℚ) ≤ (n : ℚ) / (d : ℚ) → a ≤ n / d := by
    intro a ha
    have : (a : ℚ) < ((n / d : ℕ) : ℚ) + 1 := by linarith
    have : a < n / d + 1 := by exact_mod_cast this
    omega
  have hup : ∀ b : ℕ, (n : ℚ) / (d : ℚ) ≤ (b : ℚ) → 0 < n % d → n / d + 1 ≤ b := by
    intro b hb hpos
    have hpos' : (0 : ℚ) < ((n % d : ℕ) : ℚ) := by exact_mod_cast hpos
    have : (0 : ℚ) < ((n % d : ℕ) : ℚ) / (d : ℚ) := div_pos hpos' hd'
    have : ((n / d : ℕ) : ℚ) < (b : ℚ) := by linarith
    have : n / d < b := by exact_mod_cast this
    omega
  have hup0 : ∀ b : ℕ, (n : ℚ) / (d : ℚ) ≤ (b : ℚ) → n / d ≤ b := by
    intro b hb
    have : ((n / d : ℕ) : ℚ) ≤ (b : ℚ) := by linarith
    exact_mod_cast this
  unfold roundHalfEven
  simp only []
  by_cases h1 : 2 * (n % d) < d
  · rw [if_pos h1]
    have h1' : (2 : ℚ) * ((n % d : ℕ) : ℚ) < (d : ℚ) := by exact_mod_cast h1
    have hf : ((n % d : ℕ) : ℚ) / (d : ℚ) < 1 / 2 := by
      rw [div_lt_iff₀ hd']
      linarith
    have habs : |((n / d : ℕ) : ℚ) - (n : ℚ) / (d : ℚ)| = ((n % d : ℕ) : ℚ) / (d : ℚ) := by
      rw [hx, abs_sub_comm, abs_of_nonneg (by linarith)]
      ring
    refine ⟨by rw [habs]; linarith, ?_, hlow, hup0⟩
    intro h
    rw [habs] at h
    linarith
  · rw [if_neg h1]
    by_cases h2 : d < 2 * (n % d)
    · rw [if_pos h2]
      have h2' : (d : ℚ) < (2 : ℚ) * ((n % d : ℕ) : ℚ) := by exact_mod_cast h2
      have hf : 1 / 2 < ((n % d : ℕ) : ℚ) / (d : ℚ) := by
        rw [lt_div_iff₀ hd']
        linarith
      have habs : |((n / d + 1 : ℕ) : ℚ) - (n : ℚ) / (d : ℚ)|
          = 1 - ((n % d : ℕ) : ℚ) / (d : ℚ) := by
        rw [hx, abs_of_nonneg (by push_cast; linarith)]
        push_cast
        ring
      refine ⟨by rw [habs]; linarith, ?_, ?_, ?_⟩
      · intro h
        rw [habs] at h
        linarith
      · intro a ha
        have := hlow a ha
        omega
      · intro b hb
        exact hup b hb (by omega)
    · rw [if_neg h2]
      have h3 : 2 * (n % d) = d := by omega
      have h3' : (2 : ℚ) * ((n % d : ℕ) : ℚ) = (d : ℚ) := by exact_mod_cast h3
      have hf : ((n % d : ℕ) : ℚ) / (d : ℚ) = 1 / 2 := by
        rw [div_eq_iff (ne_of_gt hd')]
        linarith
      by_cases h4 : n / d % 2 = 0
      · rw [if_pos h4]
        have habs : |((n / d : ℕ) : ℚ) - (n : ℚ) / (d : ℚ)| = 1 / 2 := by
          rw [hx, hf, abs_sub_comm, abs_of_nonneg (by linarith)]
          ring
        exact ⟨by rw [habs], fun _ => h4, hlow, hup0⟩
      · rw [if_neg h4]
        have habs : |((n / d + 1 : ℕ) : ℚ) - (n : ℚ) / (d : ℚ)| = 1 / 2 := by
          rw [hx, hf, abs_of_nonneg (by push_cast; linarith)]
          push_cast
          ring
        refine ⟨by rw [habs], fun _ => by omega, ?_, ?_⟩
        · intro a ha
          have := hlow a ha
          omega
        · intro b hb
          exact hup b hb (by omega)


theorem two_zpow_mono {a b : ℤ} (h : a ≤ b) : (2 : ℚ) ^ a ≤ (2 : ℚ) ^ b :=
  zpow_le_zpow_right₀ (by norm_num) h

theorem two_zpow_succ (a : ℤ) : (2 : ℚ) ^ (a + 1) = 2 * (2 : ℚ) ^ a := by
  rw [zpow_add₀ (by norm_num : (2 : ℚ) ≠ 0), zpow_one]
  ring

/-- The exponent `F64.round` works with is that of the binade of `n / d`. -/
theorem round_binade (n d : ℕ) (hn : 0 < n) (hd : 0 < d) :
    ∃ lg : ℤ,
      (if (scaleDown n d ((bitLen n : ℤ) - (bitLen d : ℤ))).2
            ≤ (scaleDown n d ((bitLen n : ℤ) - (bitLen d : ℤ))).1
          then (bitLen n : ℤ) - (bitLen d : ℤ) else (bitLen n : ℤ) - (bitLen d : ℤ) - 1) = lg ∧
        (2 : ℚ) ^ lg ≤ (n : ℚ) / (d : ℚ) ∧ (n : ℚ) / (d : ℚ) < (2 : ℚ) ^ (lg + 1) := by
  obtain ⟨kn, hkn, hn1, hn2⟩ := bitLen_spec n hn
  obtain ⟨kd, hkd, hd1, hd2⟩ := bitLen_spec d hd
  have hd' : (0 : ℚ) < (d : ℚ) := by exact_mod_cast hd
  have hk : (bitLen n : ℤ) - (bitLen d : ℤ) = (kn : ℤ) - (kd : ℤ) := by
    rw [hkn, hkd]
    push_cast
    ring
  rw [hk]
  have hn1' : (2 : ℚ) ^ (kn : ℤ) ≤ (n : ℚ) := by
    rw [zpow_natCast]
    exact_mod_cast hn1
  have hn2' : (n : ℚ) < (2 : ℚ) ^ ((kn : ℤ) + 1) := by
    rw [two_zpow_succ, zpow_natCast]
    have : (n : ℚ) < ((2 ^ (kn + 1) : ℕ) : ℚ) := by exact_mod_cast hn2
    rw [pow_succ] at this
    push_cast at this
    linarith
  have hd1' : (2 : ℚ) ^ (kd : ℤ) ≤ (d : ℚ) := by
    rw [zpow_natCast]
    exact_mod_cast hd1
  have hd2' : (d : ℚ) < (2 : ℚ) ^ ((kd : ℤ) + 1) := by
    rw [two_zpow_succ, zpow_natCast]
    have : (d : ℚ) < ((2 ^ (kd + 1) : ℕ) : ℚ) := by exact_mod_cast hd2
    rw [pow_succ] at this
    push_cast at this
    linarith
  have hpd : (0 : ℚ) < (2 : ℚ) ^ (kd : ℤ) := two_zpow_pos _
  have hpk : (0 : ℚ) < (2 : ℚ) ^ ((kn : ℤ) - (kd : ℤ)) := two_zpow_pos _
  have hsplit : (2 : ℚ) ^ (kn : ℤ) = (2 : ℚ) ^ ((kn : ℤ) - (kd : ℤ)) * (2 : ℚ) ^ (kd : ℤ) := by
    rw [← zpow_add₀ (by norm_num : (2 : ℚ) ≠ 0)]
    congr 1
    ring
  -- upper bound: n / d < 2^(k+1)
  have hup : (n : ℚ) / (d : ℚ) < (2 : ℚ) ^ ((kn : ℤ) - (kd : ℤ) + 1) := by
    rw [div_lt_iff₀ hd', two_zpow_succ]
    have h1 : (n : ℚ) < 2 * (2 : ℚ) ^ (kn : ℤ) := by
      rw [two_zpow_succ] at hn2'
      exact hn2'
    have h2 : 2 * (2 : ℚ) ^ ((kn : ℤ) - (kd : ℤ)) * (2 : ℚ) ^ (kd : ℤ)
        ≤ 2 * (2 : ℚ) ^ ((kn : ℤ) - (kd : ℤ)) * (d : ℚ) :=
      mul_le_mul_of_nonneg_left hd1' (by positivity)
    rw [hsplit] at h1
    linarith
  -- lower bound: 2^(k-1) < n / d
  have hlow : (2 : ℚ) ^ ((kn : ℤ) - (kd : ℤ) - 1) < (n : ℚ) / (d : ℚ) := by
    rw [lt_div_iff₀ hd']
    have h0 : (2 : ℚ) ^ ((kn : ℤ) - (kd : ℤ)) = 2 * (2 : ℚ) ^ ((kn : ℤ) - (kd : ℤ) - 1) := by
      rw [← two_zpow_succ]
      congr 1
      ring
    have hpk1 : (0 : ℚ) < (2 : ℚ) ^ ((kn : ℤ) - (kd : ℤ) - 1) := two_zpow_pos _
    have h2 : (2 : ℚ) ^ ((kn : ℤ) - (kd : ℤ) - 1) * (d : ℚ)
        < (2 : ℚ) ^ ((kn : ℤ) - (kd : ℤ) - 1) * (2 * (2 : ℚ) ^ (kd : ℤ)) := by
      rw [two_zpow_succ] at hd2'
      exact mul_lt_mul_of_pos_left hd2' hpk1
    rw [hsplit, h0] at hn1'
    linarith
  have hsd := scaleDown_val n d ((kn : ℤ) - (kd : ℤ))
  have hsp := scaleDown_pos n d ((kn : ℤ) - (kd : ℤ)) hd
  have hsp' : (0 : ℚ) < ((scaleDown n d ((kn : ℤ) - (kd : ℤ))).2 : ℚ) := by exact_mod_cast hsp
  by_cases hc : (scaleDown n d ((kn : ℤ) - (kd : ℤ))).2 ≤ (scaleDown n d ((kn : ℤ) - (kd : ℤ))).1
  · rw [if_pos hc]
    refine ⟨_, rfl, ?_, hup⟩
    have hc' : ((scaleDown n d ((kn : ℤ) - (kd : ℤ))).2 : ℚ)
        ≤ ((scaleDown n d ((kn : ℤ) - (kd : ℤ))).1 : ℚ) := by exact_mod_cast hc
    have h1 : (1 : ℚ) ≤ (n : ℚ) / (d : ℚ) / (2 : ℚ) ^ ((kn : ℤ) - (kd : ℤ)) := by
      rw [← hsd, le_div_iff₀ hsp']
      linarith
    rw [le_div_iff₀ hpk] at h1
    linarith
  · rw [if_neg hc]
    refine ⟨_, rfl, le_of_lt hlow, ?_⟩
    have hc' : ((scaleDown n d ((kn : ℤ) - (kd : ℤ))).1 : ℚ)
        < ((scaleDown n d ((kn : ℤ) - (kd : ℤ))).2 : ℚ) := by
      exact_mod_cast not_le.mp hc
    have h1 : (n : ℚ) / (d : ℚ) / (2 : ℚ) ^ ((kn : ℤ) - (kd : ℤ)) < 1 := by
      rw [← hsd, div_lt_iff₀ hsp']
      linarith
    rw [div_lt_iff₀ hpk] at h1
    have e1 : (kn : ℤ) - (kd : ℤ) - 1 + 1 = (kn : ℤ) - (kd : ℤ) := by ring
    rw [e1]
    linarith


theorem two_zpow_add_nat (k : ℕ) (e : ℤ) :
    ((2 ^ k : ℕ) : ℚ) * (2 : ℚ) ^ e = (2 : ℚ) ^ ((k : ℤ) + e) := by
  rw [zpow_add₀ (by norm_num : (2 : ℚ) ≠ 0), zpow_natCast]
  push_cast
  rfl

/-- `F64.round` rounds to nearest, ties to even. With `2^e0` the spacing of the `float64`
values in the binade of `n / d` (not below the spacing `2^-1074` of the subnormals) and `r`
the whole number nearest to `n / d / 2^e0`, the even one on a tie, the result is
`r * 2^e0`, in the form of the type, or the infinity when `r * 2^e0` reaches `2^1024`. -/
theorem round_nearest (neg : Bool) (n d : ℕ) (hn : 0 < n) (hd : 0 < d) :
    ∃ (e0 : ℤ) (r : ℕ),
      (-1074 ≤ e0 ∧ (n : ℚ) / (d : ℚ) < (2 : ℚ) ^ (e0 + 53) ∧
        (e0 = -1074 ∨ (2 : ℚ) ^ (e0 + 52) ≤ (n : ℚ) / (d : ℚ))) ∧
      (|(r : ℚ) - (n : ℚ) / (d : ℚ) / (2 : ℚ) ^ e0| ≤ 1 / 2 ∧
        (|(r : ℚ) - (n : ℚ) / (d : ℚ) / (2 : ℚ) ^ e0| = 1 / 2 → r % 2 = 0)) ∧
      ((∃ m e, F64.round neg n d = .finite neg m e ∧
          (m : ℚ) * (2 : ℚ) ^ e = (r : ℚ) * (2 : ℚ) ^ e0 ∧
          m < 2 ^ 53 ∧ -1074 ≤ e ∧ e ≤ 971 ∧ (e = -1074 ∨ 2 ^ 52 ≤ m)) ∨
        (F64.round neg n d = .inf neg ∧ (2 : ℚ) ^ (1024 : ℤ) ≤ (r : ℚ) * (2 : ℚ) ^ e0)) := by
  obtain ⟨lg, hlg, hq1, hq2⟩ := round_binade n d hn hd
  unfold F64.round
  rw [if_neg (by omega)]
  simp only []
  rw [hlg]
  generalize he0 : max (lg - 52) (-1074) = e0
  have he0a : -1074 ≤ e0 := by rw [← he0]; exact le_max_right _ _
  have he0b : lg - 52 ≤ e0 := by rw [← he0]; exact le_max_left _ _
  have he0c : e0 = -1074 ∨ e0 = lg - 52 := by
    rw [← he0]
    rcases le_total (lg - 52) (-1074) with h | h
    · left; exact max_eq_right h
    · right; exact max_eq_left h
  have hp0 : (0 : ℚ) < (2 : ℚ) ^ e0 := two_zpow_pos _
  have hsd := scaleDown_val n d e0
  have hsp := scaleDown_pos n d e0 hd
  obtain ⟨hr1, hr2, hr3, hr4⟩ := roundHalfEven_spec (scaleDown n d e0).1 (scaleDown n d e0).2 hsp
  rw [hsd] at hr1 hr2 hr3 hr4
  generalize roundHalfEven (scaleDown n d e0).1 (scaleDown n d e0).2 = r at hr1 hr2 hr3 hr4
  -- bounds on the scaled number
  have hx2 : (n : ℚ) / (d : ℚ) / (2 : ℚ) ^ e0 ≤ ((2 ^ 53 : ℕ) : ℚ) := by
    rw [div_le_iff₀ hp0, two_zpow_add_nat]
    exact le_of_lt (lt_of_lt_of_le hq2 (two_zpow_mono (by push_cast; omega)))
  have hr53 : r ≤ 2 ^ 53 := hr4 _ hx2
  have hbig : e0 = lg - 52 → 2 ^ 52 ≤ r := by
    intro h
    apply hr3
    rw [le_div_iff₀ hp0, two_zpow_add_nat]
    have h1 : ((52 : ℕ) : ℤ) + e0 = lg := by push_cast; omega
    rw [h1]
    exact hq1
  refine ⟨e0, r, ⟨he0a, ?_, ?_⟩, ⟨hr1, hr2⟩, ?_⟩
  · exact lt_of_lt_of_le hq2 (two_zpow_mono (by omega))
  · rcases he0c with h | h
    · exact Or.inl h
    · right
      have : e0 + 52 = lg := by omega
      rw [this]
      exact hq1
  · by_cases hm : r = 2 ^ 53
    · rw [if_pos hm, if_pos hm]
      have hval : ((2 ^ 52 : ℕ) : ℚ) * (2 : ℚ) ^ (e0 + 1) = (r : ℚ) * (2 : ℚ) ^ e0 := by
        rw [hm, two_zpow_add_nat, two_zpow_add_nat]
        congr 1
        push_cast
        ring
      by_cases hov : 971 < e0 + 1
      · rw [if_pos hov]
        right
        refine ⟨rfl, ?_⟩
        rw [hm, two_zpow_add_nat]
        exact two_zpow_mono (by push_cast; omega)
      · rw [if_neg hov]
        left
        exact ⟨2 ^ 52, e0 + 1, rfl, hval, by norm_num, by omega, by omega, Or.inr (le_refl _)⟩
    · rw [if_neg hm, if_neg hm]
      by_cases hov : 971 < e0
      · rw [if_pos hov]
        right
        refine ⟨rfl, ?_⟩
        have hlg' : e0 = lg - 52 := by
          rcases he0c with h | h
          · omega
          · exact h
        have hr52 : ((2 ^ 52 : ℕ) : ℚ) ≤ (r : ℚ) := Nat.cast_le.mpr (hbig hlg')
        have h1 : (2 : ℚ) ^ (1024 : ℤ) ≤ ((2 ^ 52 : ℕ) : ℚ) * (2 : ℚ) ^ e0 := by
          rw [two_zpow_add_nat]
          exact two_zpow_mono (by push_cast; omega)
        exact le_trans h1 (mul_le_mul_of_nonneg_right hr52 (le_of_lt hp0))
      · rw [if_neg hov]
        left
        refine ⟨r, e0, rfl, rfl, by omega, he0a, by omega, ?_⟩
        rcases he0c with h | h
        · exact Or.inl h
        · exact Or.inr (hbig h)


/-- What `F64.mul` rounds is the exact product of the magnitudes. -/
theorem mul_exact (m : ℕ) (e : ℤ) (m' : ℕ) (e' : ℤ) :
    ((scaleDown (m * m') 1 (-(e + e'))).1 : ℚ) / ((scaleDown (m * m') 1 (-(e + e'))).2 : ℚ)
      = ((m : ℚ) * (2 : ℚ) ^ e) * ((m' : ℚ) * (2 : ℚ) ^ e') := by
  rw [scaleDown_val, zpow_neg, zpow_add₀ (by norm_num : (2 : ℚ) ≠ 0)]
  push_cast
  field_simp
  ring

/-- What `F64.div` rounds is the exact quotient of the magnitudes. -/
theorem div_exact (m : ℕ) (e : ℤ) (m' : ℕ) (e' : ℤ) (hm' : 0 < m') :
    ((scaleDown m m' (e' - e)).1 : ℚ) / ((scaleDown m m' (e' - e)).2 : ℚ)
      = ((m : ℚ) * (2 : ℚ) ^ e) / ((m' : ℚ) * (2 : ℚ) ^ e') := by
  have h' : (m' : ℚ) ≠ 0 := by exact_mod_cast (Nat.pos_iff_ne_zero.mp hm')
  rw [scaleDown_val, zpow_sub₀ (by norm_num : (2 : ℚ) ≠ 0)]
  field_simp

/-- The product of two finite non-zero `float64` is their exact product rounded to
nearest, ties to even: with `2^e0` the spacing of the `float64` values in the binade of
the exact product and `r` the whole number nearest to the product counted in that unit,
the result is `r * 2^e0`, or the infinity when that reaches `2^1024`. -/
theorem mul_nearest (s : Bool) (m : ℕ) (e : ℤ) (t : Bool) (m' : ℕ) (e' : ℤ)
    (hm : 0 < m) (hm' : 0 < m') :
    ∃ (e0 : ℤ) (r : ℕ),
      (-1074 ≤ e0 ∧ ((m : ℚ) * (2 : ℚ) ^ e) * ((m' : ℚ) * (2 : ℚ) ^ e') < (2 : ℚ) ^ (e0 + 53) ∧
        (e0 = -1074 ∨ (2 : ℚ) ^ (e0 + 52) ≤ ((m : ℚ) * (2 : ℚ) ^ e) * ((m' : ℚ) * (2 : ℚ) ^ e'))) ∧
      (|(r : ℚ) - ((m : ℚ) * (2 : ℚ) ^ e) * ((m' : ℚ) * (2 : ℚ) ^ e') / (2 : ℚ) ^ e0| ≤ 1 / 2 ∧
        (|(r : ℚ) - ((m : ℚ) * (2 : ℚ) ^ e) * ((m' : ℚ) * (2 : ℚ) ^ e') / (2 : ℚ) ^ e0| = 1 / 2 →
          r % 2 = 0)) ∧
      ((∃ m1 e1, F64.mul (.finite s m e) (.finite t m' e') = .finite (xor s t) m1 e1 ∧
          (m1 : ℚ) * (2 : ℚ) ^ e1 = (r : ℚ) * (2 : ℚ) ^ e0 ∧
          m1 < 2 ^ 53 ∧ -1074 ≤ e1 ∧ e1 ≤ 971 ∧ (e1 = -1074 ∨ 2 ^ 52 ≤ m1)) ∨
        (F64.mul (.finite s m e) (.finite t m' e') = .inf (xor s t) ∧
          (2 : ℚ) ^ (1024 : ℤ) ≤ (r : ℚ) * (2 : ℚ) ^ e0)) := by
  have hn : 0 < (scaleDown (m * m') 1 (-(e + e'))).1 := by
    unfold scaleDown
    split_ifs
    · exact Nat.mul_pos hm hm'
    · exact Nat.mul_pos (Nat.mul_pos hm hm') (pow_pos (by decide) _)
  have hd := scaleDown_pos (m * m') 1 (-(e + e')) (by decide)
  have key := round_nearest (xor s t) _ _ hn hd
  rw [mul_exact] at key
  exact key

/-- The quotient of two finite non-zero `float64` is their exact quotient rounded to
nearest, ties to even. -/
theorem div_nearest (s : Bool) (m : ℕ) (e : ℤ) (t : Bool) (m' : ℕ) (e' : ℤ)
    (hm : 0 < m) (hm' : 0 < m') :
    ∃ (e0 : ℤ) (r : ℕ),
      (-1074 ≤ e0 ∧ ((m : ℚ) * (2 : ℚ) ^ e) / ((m' : ℚ) * (2 : ℚ) ^ e') < (2 : ℚ) ^ (e0 + 53) ∧
        (e0 = -1074 ∨ (2 : ℚ) ^ (e0 + 52) ≤ ((m : ℚ) * (2 : ℚ) ^ e) / ((m' : ℚ) * (2 : ℚ) ^ e'))) ∧
      (|(r : ℚ) - ((m : ℚ) * (2 : ℚ) ^ e) / ((m' : ℚ) * (2 : ℚ) ^ e') / (2 : ℚ) ^ e0| ≤ 1 / 2 ∧
        (|(r : ℚ) - ((m : ℚ) * (2 : ℚ) ^ e) / ((m' : ℚ) * (2 : ℚ) ^ e') / (2 : ℚ) ^ e0| = 1 / 2 →
          r % 2 = 0)) ∧
      ((∃ m1 e1, F64.div (.finite s m e) (.finite t m' e') = .finite (xor s t) m1 e1 ∧
          (m1 : ℚ) * (2 : ℚ) ^ e1 = (r : ℚ) * (2 : ℚ) ^ e0 ∧
          m1 < 2 ^ 53 ∧ -1074 ≤ e1 ∧ e1 ≤ 971 ∧ (e1 = -1074 ∨ 2 ^ 52 ≤ m1)) ∨
        (F64.div (.finite s m e) (.finite t m' e') = .inf (xor s t) ∧
          (2 : ℚ) ^ (1024 : ℤ) ≤ (r : ℚ) * (2 : ℚ) ^ e0)) := by
  have hn : 0 < (scaleDown m m' (e' - e)).1 := by
    unfold scaleDown
    split_ifs
    · exact hm
    · exact Nat.mul_pos hm (pow_pos (by decide) _)
  have hd := scaleDown_pos m m' (e' - e) hm'
  have key := round_nearest (xor s t) _ _ hn hd
  rw [div_exact m e m' e' hm'] at key
  simp only [F64.div]
  rw [if_neg (by omega)]
  exact key

/-! ## Rounding -/

set_option maxRecDepth 1000000 in
/-- For the precisions 0 to 22 the loop of `math.Pow` makes no rounding error. -/
theorem Pow10_small (k : ℕ) (hk : k ≤ 22) : Pow10 (k : ℤ) = F64.normalize false (5 ^ k) k := by
  interval_cases k <;> decide

/-- For the precisions 0 to 22 `math.Pow(10, precision)` is the exact power of ten. -/
theorem toRat_Pow10 (precision : ℤ) (h0 : 0 ≤ precision) (h1 : precision ≤ 22) :
    F64.toRat (Pow10 precision) = (10 : ℚ) ^ precision := by
  obtain ⟨k, rfl⟩ := Int.eq_ofNat_of_zero_le h0
  have hk : k ≤ 22 := by omega
  rw [Pow10_small k hk, toRat_normalize]
  simp only [Bool.false_eq_true, if_false, one_mul, zpow_natCast]
  push_cast
  rw [← mul_pow]
  norm_num

set_option maxRecDepth 1000000 in
theorem Rounder_2558 :
    Rounder (F64.round false 2558 1000) (F64.round false 1 2) 1 = F64.round false 26 10 := by
  decide

set_option maxRecDepth 1000000 in
theorem Rounder_neg_2558 :
    Rounder (F64.round true 2558 1000) (F64.round false 1 2) 1 = F64.round true 25 10 := by
  decide

set_option maxRecDepth 1000000 in
/-- C11 does not hold of the code: `Rounder(2.558, 0.5, 1)` is 2.6, yet
`Rounder(-2.558, 0.5, 1)` is -2.5 and not -2.6, so the result is not the negation of the
result on the opposite number. The cause is general: for a negative number the fractional
part `math.Modf` returns has the sign bit set, so with a positive threshold the comparison
`div >= intermed` is always false and the scaled number is truncated toward zero. -/
theorem C11_rounder_not_symmetric :
    Rounder (F64.round false 2558 1000) (F64.round false 1 2) 1 = F64.round false 26 10 ∧
      Rounder (F64.round true 2558 1000) (F64.round false 1 2) 1 = F64.round true 25 10 ∧
      F64.toRat (Rounder (F64.round true 2558 1000) (F64.round false 1 2) 1) = -(25 / 10) ∧
      Rounder (F64.round true 2558 1000) (F64.round false 1 2) 1 ≠ F64.round true 26 10 ∧
      Rounder (F64.round true 2558 1000) (F64.round false 1 2) 1
        ≠ F64.neg (Rounder (F64.round false 2558 1000) (F64.round false 1 2) 1) ∧
      (∀ (num intermed : F64) (precision : ℤ),
        F64.lt num (F64.zero false) = true → F64.lt (F64.zero false) intermed = true →
        Rounder num intermed precision
            = F64.div (Ceil (F64.mul (Pow10 precision) num)) (Pow10 precision) ∧
          ∀ s m e, F64.mul (Pow10 precision) num = .finite s m e →
            F64.toRat (Ceil (F64.mul (Pow10 precision) num))
              = ((⌈F64.toRat (F64.mul (Pow10 precision) num)⌉ : ℤ) : ℚ)) := by
  refine ⟨Rounder_2558, Rounder_neg_2558, ?_, ?_, ?_, ?_⟩
  · rw [Rounder_neg_2558]
    have h : F64.round true 25 10 = .finite true 5629499534213120 (-51) := by decide
    rw [h]
    simp only [F64.toRat]
    norm_num
  · rw [Rounder_neg_2558]
    decide
  · rw [Rounder_neg_2558, Rounder_2558]
    decide
  · intro num intermed precision hn hi
    refine ⟨Rounder_of_neg num intermed precision hn hi, ?_⟩
    intro s m e h
    rw [h]
    exact toRat_Ceil s m e

set_option maxRecDepth 1000000 in
/-- C20 fails in `float64`: for the `float64` nearest to 1.15 (which is a little below
1.15), threshold 0.5 and precision 1, the exact product `d` is a little below 11.5, so its
fractional part is below the threshold and the claim gives `floor(d) / 10 = 1.1`; but the
product computed in `float64` rounds to 11.5, whose fractional part reaches the threshold,
and `Rounder` returns the `float64` nearest to 1.2. -/
theorem C20_counterexample :
    F64.lt (F64.zero false) (F64.round false 115 100) = true ∧
      F64.toRat (F64.round false 115 100) = 5179139571476070 / 2 ^ 52 ∧
      F64.toRat (F64.round false 1 2) = 1 / 2 ∧
      Int.fract (F64.toRat (F64.round false 115 100) * 10 ^ (1 : ℤ))
        < F64.toRat (F64.round false 1 2) ∧
      F64.mul (Pow10 1) (F64.round false 115 100) = F64.round false 115 10 ∧
      F64.toRat (F64.round false 115 10) = 115 / 10 ∧
      Rounder (F64.round false 115 100) (F64.round false 1 2) 1 = F64.round false 12 10 ∧
      F64.toRat (Rounder (F64.round false 115 100) (F64.round false 1 2) 1)
        ≠ ((⌊F64.toRat (F64.round false 115 100) * 10 ^ (1 : ℤ)⌋ : ℤ) : ℚ) / 10 ^ (1 : ℤ) := by
  have hx : F64.round false 115 100 = .finite false 5179139571476070 (-52) := by decide
  have hh : F64.round false 1 2 = .finite false 4503599627370496 (-53) := by decide
  have hd : F64.round false 115 10 = .finite false 6473924464345088 (-49) := by decide
  have hr : Rounder (F64.round false 115 100) (F64.round false 1 2) 1
      = .finite false 5404319552844595 (-52) := by decide
  refine ⟨by decide, ?_, ?_, ?_, by decide, ?_, by decide, ?_⟩
  · rw [hx]
    simp only [F64.toRat]
    norm_num
  · rw [hh]
    simp only [F64.toRat]
    norm_num
  · rw [hx, hh]
    simp only [F64.toRat, Int.fract]
    norm_num
  · rw [hd]
    simp only [F64.toRat]
    norm_num
  · rw [hr, hx]
    simp only [F64.toRat]
    norm_num

/-- C20 (amended): threshold rule of `Rounder` for positive numbers, in `float64`. For
every `num > 0`, every precision and every threshold `intermed`, with `digit` the product
`math.Pow(10, precision) * num` as computed in `float64` and `f` the fractional part
`math.Modf` gives for it: `Rounder(num, intermed, precision)` is `Ceil(digit)` divided by
the power of ten when `f >= intermed`, and `Floor(digit)` divided by it otherwise. When
`digit` is finite it has no sign bit, `f` is the fractional part of its value, `Ceil` and
`Floor` are the ceiling and floor of its value, and against a finite threshold
`f >= intermed` is the comparison of the values. For the precisions 0 to 22 the power of
ten is exact. In particular `Rounder(2.558, 0.5, 1) = 2.6`. -/
theorem C20_threshold_rule (num intermed : F64) (precision : ℤ)
    (hn : F64.lt (F64.zero false) num = true) :
    (F64.le intermed (Modf (F64.mul (Pow10 precision) num)).2 = true →
        Rounder num intermed precision
          = F64.div (Ceil (F64.mul (Pow10 precision) num)) (Pow10 precision)) ∧
      (F64.le intermed (Modf (F64.mul (Pow10 precision) num)).2 = false →
        Rounder num intermed precision
          = F64.div (Floor (F64.mul (Pow10 precision) num)) (Pow10 precision)) ∧
      (∀ s m e, F64.mul (Pow10 precision) num = .finite s m e →
        s = false ∧
          F64.toRat (Modf (F64.mul (Pow10 precision) num)).2
            = Int.fract (F64.toRat (F64.mul (Pow10 precision) num)) ∧
          F64.toRat (Ceil (F64.mul (Pow10 precision) num))
            = ((⌈F64.toRat (F64.mul (Pow10 precision) num)⌉ : ℤ) : ℚ) ∧
          F64.toRat (Floor (F64.mul (Pow10 precision) num))
            = ((⌊F64.toRat (F64.mul (Pow10 precision) num)⌋ : ℤ) : ℚ) ∧
          ∀ t mt et, intermed = .finite t mt et →
            (F64.le intermed (Modf (F64.mul (Pow10 precision) num)).2 = true
              ↔ F64.toRat intermed ≤ Int.fract (F64.toRat (F64.mul (Pow10 precision) num)))) ∧
      (0 ≤ precision → precision ≤ 22 → F64.toRat (Pow10 precision) = (10 : ℚ) ^ precision) ∧
      Rounder (F64.round false 2558 1000) (F64.round false 1 2) 1 = F64.round false 26 10 := by
  have hr := Rounder_of_pos num intermed precision hn
  refine ⟨?_, ?_, ?_, toRat_Pow10 precision, Rounder_2558⟩
  · intro h
    rw [hr, if_pos h]
  · intro h
    rw [hr, if_neg (by rw [h]; decide)]
  · intro s m e hdig
    obtain ⟨_, hs, _⟩ := lt_zero_left num hn
    have hsd : s = false := by
      have := mul_signbit_false _ _ (Pow10_signbit precision) hs
      rw [hdig] at this
      exact this
    subst hsd
    rw [hdig]
    refine ⟨rfl, toRat_Modf_frac m e, toRat_Ceil false m e, toRat_Floor false m e, ?_⟩
    intro t mt et hint
    obtain ⟨m', e', hf⟩ := Modf_frac_finite false m e
    rw [hint, ← toRat_Modf_frac m e, hf]
    exact le_iff_toRat t mt et false m' e'

set_option maxRecDepth 1000000 in
/-- Witness of C20 (amended) at `num = 1.25`, `intermed = 0.5`, `precision = 1`: the
product is 12.5, its fractional part reaches the threshold, and the result is the
ceiling 13 divided by 10. -/
theorem C20_threshold_rule_witness :
    F64.lt (F64.zero false) (F64.round false 125 100) = true ∧
      F64.le (F64.round false 1 2)
        (Modf (F64.mul (Pow10 1) (F64.round false 125 100))).2 = true ∧
      Rounder (F64.round false 125 100) (F64.round false 1 2) 1
        = F64.div (Ceil (F64.mul (Pow10 1) (F64.round false 125 100))) (Pow10 1) ∧
      Rounder (F64.round false 125 100) (F64.round false 1 2) 1 = F64.round false 13 10 :=
  ⟨by decide, by decide,
    (C20_threshold_rule (F64.round false 125 100) (F64.round false 1 2) 1 (by decide)).1
      (by decide),
    by decide⟩

/-! ## The generator against its reference definition -/

theorem drop_set_self (l : List Char) (n : ℕ) (c : Char) (h : n < l.length) :
    (l.set n c).drop n = c :: l.drop (n + 1) := by
  rw [List.drop_eq_getElem_cons (by simpa using h), List.getElem_set_self,
    List.drop_set_of_lt c l (Nat.lt_succ_self n)]

/-- The chunks a loop state is going to examine are the chunk examined now, then the
chunks pending after one pass of the loop. -/
theorem range_map_pending_succ (a : String) (g : LoopState) (K : ℕ) :
    (List.range (K + 1)).map (pending g)
      = examined g :: (List.range K).map (pending (loopBody a g)) := by
  rw [List.range_succ_eq_map, List.map_cons, List.map_map, pending_zero]
  congr 1
  apply List.map_congr_left
  intro k _
  rw [pending_loopBody]
  rfl

theorem loopBody_b_length (a : String) (g : LoopState) :
    (loopBody a g).b.length = g.b.length := by
  rw [loopBody_b]
  by_cases hacc : examined g < a.data.length
  · rw [dif_pos hacc, List.length_set]
  · rw [dif_neg hacc]

/-- What the loop leaves in the slice: below position `i + 1`, the characters of the first
`i + 1` accepted chunks, the first accepted one last; from `i + 1` on, what was there. -/
theorem runLoop_b (a : String) (K : ℕ) :
    ∀ g g' : LoopState, runLoop a K g = some g' → (g.i + 1).toNat ≤ g.b.length →
      g'.b =
        (((((List.range K).map (pending g)).filter (fun c => c < a.data.length)).take
            (g.i + 1).toNat).map (fun c => a.data.getD c (Char.ofNat 0))).reverse
          ++ g.b.drop (g.i + 1).toNat := by
  induction K with
  | zero =>
    intro g g' h _
    unfold runLoop at h
    by_cases hi : 0 ≤ g.i
    · rw [if_pos hi] at h
      exact absurd h (by simp)
    · rw [if_neg hi] at h
      have hg : g = g' := Option.some.inj h
      subst hg
      have hm : (g.i + 1).toNat = 0 := by omega
      rw [hm]
      simp
  | succ K ih =>
    intro g g' h hlen
    unfold runLoop at h
    by_cases hi : 0 ≤ g.i
    · rw [if_pos hi] at h
      have hi1 := loopBody_i a g
      have hb1 := loopBody_b a g
      have hl1 := loopBody_b_length a g
      have step := ih (loopBody a g) g' h (by
        rw [hl1, hi1]
        by_cases hacc : examined g < a.data.length
        · rw [if_pos hacc]; omega
        · rw [if_neg hacc]; exact hlen)
      rw [step, range_map_pending_succ a g K, hi1, hb1]
      by_cases hacc : examined g < a.data.length
      · rw [if_pos hacc, dif_pos hacc, List.filter_cons_of_pos (by simpa using hacc)]
        have hm : (g.i + 1).toNat = (g.i - 1 + 1).toNat + 1 := by omega
        have hm1 : (g.i - 1 + 1).toNat = g.i.toNat := by omega
        rw [hm, List.take_succ_cons, List.map_cons, List.reverse_cons, List.append_assoc, hm1,
          drop_set_self g.b g.i.toNat _ (by omega),
          List.getD_eq_getElem a.data (Char.ofNat 0) hacc]
        rfl
      · rw [if_neg hacc, dif_neg hacc, List.filter_cons_of_neg (by simpa using hacc)]
    · rw [if_neg hi] at h
      have hg : g = g' := Option.some.inj h
      subst hg
      have hm : (g.i + 1).toNat = 0 := by omega
      rw [hm]
      simp

theorem acceptedChunks_length (len : ℕ) (src : Source) (K : ℕ) :
    (acceptedChunks len src K).length = Nat.count (fun k => chunkSeq src k < len) K := by
  unfold acceptedChunks
  rw [List.filter_map, List.length_map, ← List.countP_eq_length_filter]
  rfl

theorem acceptedChunks_add (len : ℕ) (src : Source) (K J : ℕ) :
    acceptedChunks len src (K + J)
      = acceptedChunks len src K
        ++ ((List.range J).map (fun j => chunkSeq src (K + j))).filter (fun c => c < len) := by
  unfold acceptedChunks
  rw [List.range_add, List.map_append, List.filter_append, List.map_map]
  rfl

/-- Looking for the first `n` accepted chunks further along the chunk sequence changes
nothing once `n` accepted chunks have been seen. -/
theorem referenceString_mono (a : String) (src : Source) (n K K' : ℕ) (hK : K ≤ K')
    (hn : n ≤ (acceptedChunks a.data.length src K).length) :
    referenceString a src n K' = referenceString a src n K := by
  obtain ⟨J, rfl⟩ := Nat.exists_eq_add_of_le hK
  unfold referenceString
  rw [acceptedChunks_add, List.take_append_of_le_length hn]

theorem pending_init_fun (src : Source) (b : List Char) (i : ℤ) :
    pending { b := b, i := i, cache := src.Int63.1, remain := letterIdxMax, src := src.Int63.2 }
      = chunkSeq src :=
  funext (pending_init src b i)

/-- A returning call returns the reference string of its source. -/
theorem generate_eq_reference (a : String) (src : Source) (n : ℤ) (hn : 0 ≤ n) (K : ℕ)
    (s : String) (rest : Source) (h : generate a src n K = .returned s rest) :
    s = referenceString a src n.toNat K := by
  unfold generate at h
  rw [if_neg (not_lt.mpr hn)] at h
  simp only [] at h
  cases hrun : runLoop a K
    { b := List.replicate n.toNat (Char.ofNat 0), i := n - 1, cache := src.Int63.1,
      remain := letterIdxMax, src := src.Int63.2 } with
  | none =>
    rw [hrun] at h
    exact absurd h (by simp)
  | some g =>
    rw [hrun] at h
    simp only [Outcome.returned.injEq] at h
    obtain ⟨hs, _⟩ := h
    subst hs
    have hb := runLoop_b a K _ g hrun (by simp)
    have hp := pending_init_fun src (List.replicate n.toNat (Char.ofNat 0)) (n - 1)
    have e : (n - 1 + 1).toNat = n.toNat := by rw [Int.sub_add_cancel]
    simp only [] at hb
    rw [hp, e, List.drop_eq_nil_of_le (by simp), List.append_nil] at hb
    rw [hb]
    rfl


/-- C15: reference definition of the generator. The chunk sequence of a source takes from
each value drawn, in order, its ten lowest 6-bit chunks from least to most significant
(chunk `j` of a draw `v` is `(v >> 6j) & 63`, `j = 0..9`). For every `n >= 0` on which the
call returns, `RandomStr(n)` is the reverse of the string mapping through `letterBytes` the
first `n` chunks below 52, in order (there are `n` such chunks among those examined, and
looking further along the sequence changes nothing); `RandomNumeric(n)` is the same with
the alphabet `numeric` and bound 10. -/
theorem C15_reference_definition (src : Source) (n : ℤ) (hn : 0 ≤ n) (K : ℕ) (s : String)
    (rest : Source) :
    (∀ k : ℕ, chunkSeq src k
        = ((src.draws (src.pos + k / 10) % 2 ^ 63) >>> (6 * (k % 10))) &&& 63) ∧
      (RandomStr src n K = .returned s rest →
        n.toNat ≤ (acceptedChunks 52 src K).length ∧
          ∀ K' : ℕ, K ≤ K' → s = referenceString letterBytes src n.toNat K') ∧
      (RandomNumeric src n K = .returned s rest →
        n.toNat ≤ (acceptedChunks 10 src K).length ∧
          ∀ K' : ℕ, K ≤ K' → s = referenceString numeric src n.toNat K') := by
  refine ⟨fun k => rfl, ?_, ?_⟩
  · intro h
    have hc : n.toNat ≤ (acceptedChunks letterBytes.data.length src K).length := by
      rw [acceptedChunks_length]
      exact (generate_returned_iff letterBytes src n hn K).mp ⟨s, rest, h⟩
    refine ⟨hc, fun K' hK => ?_⟩
    rw [referenceString_mono letterBytes src n.toNat K K' hK hc]
    exact generate_eq_reference letterBytes src n hn K s rest h
  · intro h
    have hc : n.toNat ≤ (acceptedChunks numeric.data.length src K).length := by
      rw [acceptedChunks_length]
      exact (generate_returned_iff numeric src n hn K).mp ⟨s, rest, h⟩
    refine ⟨hc, fun K' hK => ?_⟩
    rw [referenceString_mono numeric src n.toNat K K' hK hc]
    exact generate_eq_reference numeric src n hn K s rest h

set_option maxRecDepth 1000000 in
/-- Witness of C15: on the sample source `RandomStr(12)` examines 16 chunks, of which 63,
55, 56 and 62 are rejected, and returns the reference string of the 12 accepted ones. -/
theorem C15_reference_definition_witness :
    RandomStr sampleSource 12 16 = .returned "lLpGQEBLsNWv" { sampleSource with pos := 2 } ∧
      (List.range 16).map (chunkSeq sampleSource)
        = [21, 48, 39, 18, 63, 37, 27, 30, 55, 56, 42, 32, 15, 37, 62, 11] ∧
      (12 : ℤ).toNat ≤ (acceptedChunks 52 sampleSource 16).length ∧
      ∀ K' : ℕ, 16 ≤ K' → "lLpGQEBLsNWv" = referenceString letterBytes sampleSource (12 : ℤ).toNat K' :=
  ⟨rfl, rfl, (C15_reference_definition sampleSource 12 (by decide) 16 "lLpGQEBLsNWv"
    { sampleSource with pos := 2 }).2.1 rfl⟩

/-! ## Number of entropy draws -/

/-- Every pass of the loop moves `10 * pos - remain` up by one: a loop that leaves after
exactly `K` passes has drawn accordingly. -/
theorem runLoop_draws (a : String) (K : ℕ) :
    ∀ g g' : LoopState, runLoop a K g = some g' → (∀ J : ℕ, J < K → runLoop a J g = none) →
      g.remain ≤ 10 →
      10 * g'.src.pos + g.remain = 10 * g.src.pos + K + g'.remain ∧
        (K = 0 → g'.remain = g.remain) ∧ (0 < K → g'.remain ≤ 9) := by
  induction K with
  | zero =>
    intro g g' h _ _
    unfold runLoop at h
    by_cases hi : 0 ≤ g.i
    · rw [if_pos hi] at h
      exact absurd h (by simp)
    · rw [if_neg hi] at h
      have hg : g = g' := Option.some.inj h
      subst hg
      exact ⟨by omega, fun _ => rfl, fun h0 => absurd h0 (by decide)⟩
  | succ K ih =>
    intro g g' h hmin hrem
    have hi : 0 ≤ g.i := by
      by_contra hneg
      have h0 := hmin 0 (Nat.succ_pos K)
      rw [runLoop_of_neg a 0 g (by omega)] at h0
      exact absurd h0 (by simp)
    unfold runLoop at h
    rw [if_pos hi] at h
    have hmin1 : ∀ J : ℕ, J < K → runLoop a J (loopBody a g) = none := by
      intro J hJ
      have := hmin (J + 1) (by omega)
      unfold runLoop at this
      rw [if_pos hi] at this
      exact this
    have h10 : letterIdxMax = 10 := rfl
    have hr1 := loopBody_remain a g
    have hs1 := loopBody_src a g
    rw [h10] at hr1
    have hrem1 : (loopBody a g).remain ≤ 9 := by
      rw [hr1]
      by_cases hr : g.remain = 0
      · rw [if_pos hr]
      · rw [if_neg hr]; omega
    obtain ⟨e1, e2, e3⟩ := ih (loopBody a g) g' h hmin1 (by omega)
    have hfin : g'.remain ≤ 9 := by
      rcases Nat.eq_zero_or_pos K with hK | hK
      · rw [e2 hK]; exact hrem1
      · exact e3 hK
    refine ⟨?_, fun h0 => absurd h0 (Nat.succ_ne_zero K), fun _ => hfin⟩
    by_cases hr : g.remain = 0
    · rw [if_pos hr] at hr1 hs1
      have hp : (loopBody a g).src.pos = g.src.pos + 1 := by rw [hs1]; rfl
      rw [hr1, hp] at e1
      omega
    · rw [if_neg hr] at hr1 hs1
      rw [hr1, hs1] at e1
      omega

/-- A call that returns after exactly `K` passes of the loop has examined `K >= n` chunks
and drawn `max(1, ceil(K / 10))` values. -/
theorem generate_draws (a : String) (src : Source) (n : ℤ) (hn : 0 ≤ n) (K : ℕ) (s : String)
    (rest : Source) (h : generate a src n K = .returned s rest)
    (hmin : ∀ J : ℕ, J < K → generate a src n J = .running) :
    rest.pos = src.pos + max 1 ((K + 9) / 10) ∧ n.toNat ≤ K := by
  have hcount := (generate_returned_iff a src n hn K).mp ⟨s, rest, h⟩
  have hle : n.toNat ≤ K := le_trans hcount (Nat.count_le _)
  refine ⟨?_, hle⟩
  unfold generate at h
  rw [if_neg (not_lt.mpr hn)] at h
  simp only [] at h
  have hmin1 : ∀ J : ℕ, J < K → runLoop a J
      { b := List.replicate n.toNat (Char.ofNat 0), i := n - 1, cache := src.Int63.1,
        remain := letterIdxMax, src := src.Int63.2 } = none := by
    intro J hJ
    have hJ1 := hmin J hJ
    unfold generate at hJ1
    rw [if_neg (not_lt.mpr hn)] at hJ1
    simp only [] at hJ1
    cases hrun : runLoop a J
      { b := List.replicate n.toNat (Char.ofNat 0), i := n - 1, cache := src.Int63.1,
        remain := letterIdxMax, src := src.Int63.2 } with
    | none => rfl
    | some g =>
      rw [hrun] at hJ1
      exact absurd hJ1 (by simp)
  cases hrun : runLoop a K
    { b := List.replicate n.toNat (Char.ofNat 0), i := n - 1, cache := src.Int63.1,
      remain := letterIdxMax, src := src.Int63.2 } with
  | none =>
    rw [hrun] at h
    exact absurd h (by simp)
  | some g =>
    rw [hrun] at h
    simp only [Outcome.returned.injEq] at h
    obtain ⟨_, hrest⟩ := h
    subst hrest
    obtain ⟨e1, e2, e3⟩ := runLoop_draws a K _ g hrun hmin1 (le_refl 10)
    have h10 : letterIdxMax = 10 := rfl
    have hp : (src.Int63.2).pos = src.pos + 1 := rfl
    simp only [h10, hp] at e1 e2
    rcases Nat.eq_zero_or_pos K with hK | hK
    · have := e2 hK
      subst hK
      omega
    · have := e3 hK
      have hmax : max 1 ((K + 9) / 10) = (K + 9) / 10 := max_eq_right (by omega)
      rw [hmax]
      omega


/-- C18: number of entropy draws. If a call of `RandomStr(n)` or `RandomNumeric(n)` with
`n >= 0` returns after examining exactly `K` chunks (it returns with `K` passes of the loop
and is still running with fewer), then `K >= n` and the call has drawn exactly
`max(1, ceil(K / 10))` values from the source, hence at least `max(1, ceil(n / 10))`. A pass
of the loop draws a value only when the chunk budget `remain` is zero, and a call with
`n = 0` consumes exactly one value. -/
theorem C18_entropy_draws (src : Source) (n : ℤ) (hn : 0 ≤ n) (K : ℕ) (s : String)
    (rest : Source) :
    (RandomStr src n K = .returned s rest → (∀ J : ℕ, J < K → RandomStr src n J = .running) →
        n.toNat ≤ K ∧ rest.pos = src.pos + max 1 ((K + 9) / 10) ∧
          src.pos + max 1 ((n.toNat + 9) / 10) ≤ rest.pos) ∧
      (RandomNumeric src n K = .returned s rest →
        (∀ J : ℕ, J < K → RandomNumeric src n J = .running) →
        n.toNat ≤ K ∧ rest.pos = src.pos + max 1 ((K + 9) / 10) ∧
          src.pos + max 1 ((n.toNat + 9) / 10) ≤ rest.pos) ∧
      (∀ (a : String) (g : LoopState),
        (g.remain ≠ 0 → (loopBody a g).src = g.src) ∧
          (g.remain = 0 → (loopBody a g).src.pos = g.src.pos + 1)) ∧
      (∀ fuel : ℕ, RandomStr src 0 fuel = .returned "" src.Int63.2 ∧
        RandomNumeric src 0 fuel = .returned "" src.Int63.2) ∧
      (src.Int63.2).pos = src.pos + 1 := by
  refine ⟨?_, ?_, ?_, fun fuel => ⟨generate_zero letterBytes src fuel,
    generate_zero numeric src fuel⟩, rfl⟩
  · intro h hmin
    obtain ⟨h1, h2⟩ := generate_draws letterBytes src n hn K s rest h hmin
    refine ⟨h2, h1, ?_⟩
    rw [h1]
    have : (n.toNat + 9) / 10 ≤ (K + 9) / 10 := Nat.div_le_div_right (by omega)
    exact Nat.add_le_add_left (max_le_max (le_refl 1) this) _
  · intro h hmin
    obtain ⟨h1, h2⟩ := generate_draws numeric src n hn K s rest h hmin
    refine ⟨h2, h1, ?_⟩
    rw [h1]
    have : (n.toNat + 9) / 10 ≤ (K + 9) / 10 := Nat.div_le_div_right (by omega)
    exact Nat.add_le_add_left (max_le_max (le_refl 1) this) _
  · intro a g
    rw [loopBody_src]
    constructor
    · intro hr
      rw [if_neg hr]
    · intro hr
      rw [if_pos hr]
      rfl

set_option maxRecDepth 1000000 in
/-- Witness of C18: on the sample source `RandomStr(12)` returns after exactly 16 passes of
the loop, having drawn `ceil(16 / 10) = 2` values. -/
theorem C18_entropy_draws_witness :
    RandomStr sampleSource 12 16 = .returned "lLpGQEBLsNWv" { sampleSource with pos := 2 } ∧
      (∀ J : ℕ, J < 16 → RandomStr sampleSource 12 J = .running) ∧
      (12 : ℤ).toNat ≤ 16 ∧
      (2 : ℕ) = sampleSource.pos + max 1 ((16 + 9) / 10) ∧
      sampleSource.pos + max 1 (((12 : ℤ).toNat + 9) / 10) ≤ 2 :=
  ⟨rfl, (by intro J hJ; interval_cases J <;> rfl),
    (C18_entropy_draws sampleSource 12 (by decide) 16 "lLpGQEBLsNWv"
      { sampleSource with pos := 2 }).1 rfl (by intro J hJ; interval_cases J <;> rfl)⟩

/-! ## Index-to-character mapping -/

theorem examined_lt (g : LoopState) : examined g < 64 := by
  unfold examined
  have h : letterIdxMask = 63 := rfl
  rw [h]
  exact Nat.lt_succ_of_le Nat.and_le_right

/-- In a list without repetition every element sits at exactly one index. -/
theorem unique_index_of_nodup (l : List Char) (hl : l.Nodup) (ch : Char) (hch : ch ∈ l) :
    ∃ c : ℕ, l[c]? = some ch ∧ ∀ d : ℕ, l[d]? = some ch → d = c := by
  obtain ⟨c, hc, hget⟩ := List.mem_iff_getElem.mp hch
  refine ⟨c, ?_, ?_⟩
  · rw [List.getElem?_eq_getElem hc, hget]
  · intro d hd
    obtain ⟨hdl, hdget⟩ := List.getElem?_eq_some_iff.mp hd
    exact (List.Nodup.getElem_inj_iff hl).mp (hdget.trans hget.symm)

theorem letterBytes_nodup : letterBytes.data.Nodup := by
  decide

theorem numeric_nodup : numeric.data.Nodup := by
  decide

/-- C19: index-to-character mapping. A chunk examined by the loop is one of 64 values and
is accepted exactly when it is below the length of the alphabet, the pass then writing the
character at that index of the alphabet; of the 64 chunk values `RandomStr` accepts exactly
52 and `RandomNumeric` exactly 10. `letterBytes` has 52 pairwise distinct bytes and
`numeric` 10, so every character of the alphabet is selected by exactly one chunk value. -/
theorem C19_index_mapping :
    (∀ g : LoopState, examined g < 64) ∧
      (∀ (a : String) (g : LoopState),
        (∀ h : examined g < a.data.length,
          (loopBody a g).b = g.b.set g.i.toNat (a.data.get ⟨examined g, h⟩) ∧
            (loopBody a g).i = g.i - 1) ∧
        (¬ examined g < a.data.length → (loopBody a g).b = g.b ∧ (loopBody a g).i = g.i)) ∧
      ((List.range 64).filter (fun c => c < letterBytes.data.length)).length = 52 ∧
      ((List.range 64).filter (fun c => c < numeric.data.length)).length = 10 ∧
      (letterBytes.data.length = 52 ∧ letterBytes.utf8ByteSize = 52 ∧ letterBytes.data.Nodup) ∧
      (numeric.data.length = 10 ∧ numeric.utf8ByteSize = 10 ∧ numeric.data.Nodup) ∧
      (∀ ch ∈ letterBytes.data, ∃ c : ℕ, c < 52 ∧ letterBytes.data[c]? = some ch ∧
        ∀ d : ℕ, letterBytes.data[d]? = some ch → d = c) ∧
      (∀ ch ∈ numeric.data, ∃ c : ℕ, c < 10 ∧ numeric.data[c]? = some ch ∧
        ∀ d : ℕ, numeric.data[d]? = some ch → d = c) := by
  refine ⟨examined_lt, ?_, by decide, by decide, ⟨rfl, rfl, letterBytes_nodup⟩,
    ⟨rfl, rfl, numeric_nodup⟩, ?_, ?_⟩
  · intro a g
    rw [loopBody_b, loopBody_i]
    constructor
    · intro h
      rw [dif_pos h, if_pos h]
      exact ⟨rfl, rfl⟩
    · intro h
      rw [dif_neg h, if_neg h]
      exact ⟨rfl, rfl⟩
  · intro ch hch
    obtain ⟨c, h1, h2⟩ := unique_index_of_nodup _ letterBytes_nodup ch hch
    exact ⟨c, (List.getElem?_eq_some_iff.mp h1).1, h1, h2⟩
  · intro ch hch
    obtain ⟨c, h1, h2⟩ := unique_index_of_nodup _ numeric_nodup ch hch
    exact ⟨c, (List.getElem?_eq_some_iff.mp h1).1, h1, h2⟩

end Common
